import Mathlib

/-!
# tdop: four parsers for a minimal infix grammar

A shallow embedding of `source/Main.cpp`: the tokenizer, the cursor
(`Parser`), the node model, the four parsing algorithms (naive, single-step
tree rewriting, complete tree rewriting, precedence climbing) and the
printer, followed by theorems about them.

Conventions of the embedding.

* A C string is a `String`; the end of the string stands for the terminating
  NUL, and a NUL character inside the string ends the scan as well.
* A value of type `Node` stands for a `Node *`: `Node.null` is `nullptr`,
  `Node.var c` points to a node of kind `NodeKind_Variable`, and
  `Node.binary k l r` points to a node made by `make_binary_op_node`.
  The parsers allocate every node freshly and never share one, so the heap
  reachable from a pointer is a tree.
* Reading through a null pointer, or reading `tokens[i]` outside the vector,
  is undefined behaviour in C++; the embedding stops with `Halt.fault`.
* Recursive functions and loops take a `fuel : Nat`; running out of it is
  `Halt.out_of_fuel`.  Theorems that say a parser returns a result give a
  fuel bound from which it does.
-/

namespace Tdop

/-! ## Tokenizer -/

inductive TokenKind
  | Variable
  | Plus
  | Minus
  | Slash
  | Asterisk
  | LessThan
  | GreaterThan
  | EOF
  deriving DecidableEq, Repr

structure Token where
  kind : TokenKind
  variable_name : Char
  deriving DecidableEq, Repr

/-- The character with code 0: the string terminator, and the value of the
`variable_name` member that an initializer such as `{ TokenKind_Plus }` leaves
zero-initialized. -/
def NUL : Char := Char.ofNat 0

/-- The case labels of the `LETTER` preprocessor definition. -/
def LETTER : List Char :=
  ['a', 'b', 'c', 'd', 'e', 'f', 'g', 'h', 'i', 'j', 'k', 'l', 'm',
   'n', 'o', 'p', 'q', 'r', 's', 't', 'u', 'v', 'w', 'x', 'y', 'z']

/-- The `while (keep_looping)` loop of `tokenize`: `source` is what is left of
the text, `tokens` the vector built so far (`push_back` appends at the end). -/
def tokenize_loop : List Char → List Token → List Token
  | [], tokens => tokens
  | ch :: source, tokens =>
    if ch = '+' then tokenize_loop source (tokens ++ [⟨.Plus, NUL⟩])
    else if ch = '-' then tokenize_loop source (tokens ++ [⟨.Minus, NUL⟩])
    else if ch = '/' then tokenize_loop source (tokens ++ [⟨.Slash, NUL⟩])
    else if ch = '*' then tokenize_loop source (tokens ++ [⟨.Asterisk, NUL⟩])
    else if ch = '<' then tokenize_loop source (tokens ++ [⟨.LessThan, NUL⟩])
    else if ch = '>' then tokenize_loop source (tokens ++ [⟨.GreaterThan, NUL⟩])
    else if ch ∈ LETTER then tokenize_loop source (tokens ++ [⟨.Variable, ch⟩])
    else if ch = NUL then tokens
    else tokenize_loop source tokens

def tokenize (source : String) : List Token :=
  tokenize_loop source.toList []

/-! ## Parser (common stuff) -/

structure Parser where
  tokens : List Token
  current_token_offset : Nat
  deriving DecidableEq, Repr

inductive NodeKind
  | Add
  | Sub
  | Div
  | Mul
  | Variable
  | CompareLessThan
  | CompareGreaterThan
  | Invalid
  deriving DecidableEq, Repr

inductive Node
  | null
  | var (variable_name : Char)
  | binary (kind : NodeKind) (left right : Node)
  deriving DecidableEq, Repr

/-- Why a run stops without a result. -/
inductive Halt
  | fault
  | out_of_fuel
  deriving DecidableEq, Repr

abbrev Run (α : Type) := Except Halt α

def make_variable_name_node (variable_name : Char) : Node :=
  .var variable_name

def make_binary_op_node (op : NodeKind) (left right : Node) : Node :=
  .binary op left right

/-- Reading `node->kind`. -/
def Node.kind : Node → Run NodeKind
  | .null => .error .fault
  | .var _ => .ok .Variable
  | .binary k _ _ => .ok k

/-- Reading `node->left`.  On a variable node the member overlaps
`variable_name` in the union, no parser reads it there, and the embedding
stops. -/
def Node.left : Node → Run Node
  | .binary _ l _ => .ok l
  | _ => .error .fault

def to_binary_op (token : Token) : NodeKind :=
  if token.kind = .Plus then .Add
  else if token.kind = .Minus then .Sub
  else if token.kind = .Asterisk then .Mul
  else if token.kind = .Slash then .Div
  else if token.kind = .LessThan then .CompareLessThan
  else if token.kind = .GreaterThan then .CompareGreaterThan
  else .Invalid

def is_binary_operator (token : Token) : Bool :=
  if token.kind = .Plus then true
  else if token.kind = .Minus then true
  else if token.kind = .Slash then true
  else if token.kind = .Asterisk then true
  else if token.kind = .LessThan then true
  else if token.kind = .GreaterThan then true
  else false

/-- One more than the largest `std::size_t` (64-bit). -/
def SIZE_MODULUS : Nat := 18446744073709551616

def get_next_token (parser : Parser) : Run (Token × Parser) :=
  if parser.tokens.length = parser.current_token_offset then
    .ok (⟨.EOF, NUL⟩, parser)
  else
    match parser.tokens[parser.current_token_offset]? with
    | some token =>
      .ok (token, { parser with current_token_offset := parser.current_token_offset + 1 })
    | none => .error .fault

def parse_leaf (parser : Parser) : Run (Node × Parser) := do
  let (next_token, parser) ← get_next_token parser
  if next_token.kind ≠ .Variable then return (.null, parser)
  return (make_variable_name_node next_token.variable_name, parser)

/-- The decrement is on a `std::size_t`: it wraps around at zero. -/
def go_back_to_previous_token (parser : Parser) : Parser :=
  { parser with
    current_token_offset :=
      (parser.current_token_offset + (SIZE_MODULUS - 1)) % SIZE_MODULUS }

/-! ## Naive parsing -/

def parse_expression_naive : Nat → Parser → Run (Node × Parser)
  | 0, _ => .error .out_of_fuel
  | fuel + 1, parser => do
    let (left, parser) ← parse_leaf parser
    let (next_token, parser) ← get_next_token parser
    if is_binary_operator next_token then
      let (right, parser) ← parse_expression_naive fuel parser
      return (make_binary_op_node (to_binary_op next_token) left right, parser)
    return (left, parser)

def parse_naive (fuel : Nat) (source : String) : Run Node := do
  let p : Parser := { tokens := tokenize source, current_token_offset := 0 }
  let (node, _) ← parse_expression_naive fuel p
  return node

/-! ## Parsing with tree rewriting -/

/-- The value of `dummy.left` for a rotation loop that has pushed
`current_node` down past the nodes of `spine`: each entry is a node that was
promoted (`tmp`), given by its kind and its right child, the innermost one
(`current_node_parent`) first; its left child is the next entry's node, or
`current_node` at the bottom.  With an empty `spine` the parent is still
`dummy` and `dummy.left` is `current_node`. -/
def relink (spine : List (NodeKind × Node)) (current_node : Node) : Node :=
  spine.foldl (fun below tmp => Node.binary tmp.1 below tmp.2) current_node

/-- The two `while` loops of `parse_expression_tree_rewriting_complete`; they
differ in the condition `rotates` on `current_node->right->kind` only.
`current_node` has kind `kind` and left child `left`; the recursion argument
is the present value of `current_node->right`.  One iteration takes
`tmp = current_node->right`, gives `current_node` the right child `tmp->left`,
makes `current_node` the left child of `tmp`, stores `tmp` in
`current_node_parent->left` and makes `tmp` the new parent. -/
def rotation_loop (rotates : NodeKind → Bool) (kind : NodeKind) (left : Node) :
    Node → List (NodeKind × Node) → Run Node
  | .null, _ => .error .fault
  | .var c, spine =>
    if rotates .Variable then .error .fault
    else .ok (relink spine (make_binary_op_node kind left (.var c)))
  | .binary k tmp_left tmp_right, spine =>
    if rotates k then rotation_loop rotates kind left tmp_left ((k, tmp_right) :: spine)
    else .ok (relink spine (make_binary_op_node kind left (.binary k tmp_left tmp_right)))

def parse_expression_tree_rewriting_complete : Nat → Parser → Run (Node × Parser)
  | 0, _ => .error .out_of_fuel
  | fuel + 1, parser => do
    let (left, parser) ← parse_leaf parser
    let (next_token, parser) ← get_next_token parser
    if is_binary_operator next_token then
      let (right, parser) ← parse_expression_tree_rewriting_complete fuel parser
      let kind := to_binary_op next_token
      if kind = .Mul ∨ kind = .Div then
        let root ← rotation_loop
          (fun k => k = .Mul ∨ k = .Div ∨ k = .Add ∨ k = .Sub) kind left right []
        return (root, parser)
      else if kind = .Add ∨ kind = .Sub then
        let root ← rotation_loop (fun k => k = .Add ∨ k = .Sub) kind left right []
        return (root, parser)
      else
        return (make_binary_op_node kind left right, parser)
    return (left, parser)

def parse_tree_rewriting_complete (fuel : Nat) (source : String) : Run Node := do
  let p : Parser := { tokens := tokenize source, current_token_offset := 0 }
  let (node, _) ← parse_expression_tree_rewriting_complete fuel p
  return node

/-- The assignment `node->left = left`, giving the node as it is afterwards. -/
def Node.set_left (node left : Node) : Run Node :=
  match node with
  | .binary k _ r => .ok (.binary k left r)
  | _ => .error .fault

def parse_expression_tree_rewriting : Nat → Parser → Run (Node × Parser)
  | 0, _ => .error .out_of_fuel
  | fuel + 1, parser => do
    let (left, parser) ← parse_leaf parser
    let (next_token, parser) ← get_next_token parser
    if is_binary_operator next_token then
      let (right, parser) ← parse_expression_tree_rewriting fuel parser
      let kind := to_binary_op next_token
      if kind = .Mul ∨ kind = .Div then
        let right_kind ← right.kind
        if right_kind = .Add ∨ right_kind = .Sub then
          let right_left ← right.left
          let result ← right.set_left (make_binary_op_node kind left right_left)
          return (result, parser)
      return (make_binary_op_node kind left right, parser)
    return (left, parser)

def parse_tree_rewriting (fuel : Nat) (source : String) : Run Node := do
  let p : Parser := { tokens := tokenize source, current_token_offset := 0 }
  let (node, _) ← parse_expression_tree_rewriting fuel p
  return node

/-! ## Operator precedence parsing -/

def PRECEDENCE_TABLE : TokenKind → Int
  | .Variable => 0
  | .Plus => 2
  | .Minus => 2
  | .Slash => 3
  | .Asterisk => 3
  | .LessThan => 1
  | .GreaterThan => 1
  | .EOF => 0

/- `parse_expression` compares the pointer that `parse_increasing_precedence`
returns with `left`.  The function returns either `left` itself or a node it
has just made with `left` as its left child; such a node is a different
pointer and also a different tree, so the comparison of trees below decides
the same as the comparison of pointers. -/
mutual

def parse_increasing_precedence : Nat → Parser → Node → Int → Run (Node × Parser)
  | 0, _, _, _ => .error .out_of_fuel
  | fuel + 1, parser, left, min_precedence => do
    let (next_token, parser) ← get_next_token parser
    let precedence := PRECEDENCE_TABLE next_token.kind
    if precedence ≤ min_precedence then
      return (left, go_back_to_previous_token parser)
    if is_binary_operator next_token then
      let (right, parser) ← parse_expression fuel parser precedence
      return (make_binary_op_node (to_binary_op next_token) left right, parser)
    else
      return (left, parser)

def parse_expression : Nat → Parser → Int → Run (Node × Parser)
  | 0, _, _ => .error .out_of_fuel
  | fuel + 1, parser, min_precedence => do
    let (left, parser) ← parse_leaf parser
    parse_expression_loop fuel parser left min_precedence

/-- The `while (true)` loop of `parse_expression`. -/
def parse_expression_loop : Nat → Parser → Node → Int → Run (Node × Parser)
  | 0, _, _, _ => .error .out_of_fuel
  | fuel + 1, parser, left, min_precedence => do
    let (node, parser) ← parse_increasing_precedence fuel parser left min_precedence
    if node = left then return (left, parser)
    parse_expression_loop fuel parser node min_precedence

end

def parse_pratt (fuel : Nat) (source : String) : Run Node := do
  let p : Parser := { tokens := tokenize source, current_token_offset := 0 }
  let (node, _) ← parse_expression fuel p (-1)
  return node

/-! ## Utilities -/

/-- The text `print_node2` writes.  A node made by `make_binary_op_node` whose
kind is none of the six operator kinds matches none of the tests for an
operator and writes nothing. -/
def print_node2 : Node → String
  | .null => ""
  | .var c => String.singleton c
  | .binary k left right =>
    (if k = .CompareLessThan then
      "( < " ++ print_node2 left ++ " " ++ print_node2 right ++ " )" else "") ++
    (if k = .CompareGreaterThan then
      "( > " ++ print_node2 left ++ " " ++ print_node2 right ++ " )" else "") ++
    (if k = .Add then
      "( + " ++ print_node2 left ++ " " ++ print_node2 right ++ " )" else "") ++
    (if k = .Sub then
      "( - " ++ print_node2 left ++ " " ++ print_node2 right ++ " )" else "") ++
    (if k = .Mul then
      "( * " ++ print_node2 left ++ " " ++ print_node2 right ++ " )" else "") ++
    (if k = .Div then
      "( / " ++ print_node2 left ++ " " ++ print_node2 right ++ " )" else "")

/-! ## Notions used to state the properties -/

def var_token (c : Char) : Token := ⟨.Variable, c⟩

/-- The token sequence alternates variable, operator, variable, ..., and
starts and ends with a variable. -/
def well_formed : List Token → Bool
  | [] => false
  | [v] => decide (v.kind = .Variable)
  | v :: op :: rest => decide (v.kind = .Variable) && is_binary_operator op && well_formed rest

/-- No token is `<` or `>`. -/
def arithmetic_only (tokens : List Token) : Bool :=
  tokens.all (fun t => decide (t.kind ≠ .LessThan ∧ t.kind ≠ .GreaterThan))

/-- The token an operator kind comes from (`to_binary_op` read backwards). -/
def operator_token : NodeKind → Token
  | .Add => ⟨.Plus, NUL⟩
  | .Sub => ⟨.Minus, NUL⟩
  | .Mul => ⟨.Asterisk, NUL⟩
  | .Div => ⟨.Slash, NUL⟩
  | .CompareLessThan => ⟨.LessThan, NUL⟩
  | .CompareGreaterThan => ⟨.GreaterThan, NUL⟩
  | .Variable => ⟨.Variable, NUL⟩
  | .Invalid => ⟨.EOF, NUL⟩

/-- Left subtree, operator, right subtree. -/
def in_order : Node → List Token
  | .null => []
  | .var c => [var_token c]
  | .binary k l r => in_order l ++ operator_token k :: in_order r

/-- The precedence of an operator node: the table entry of its token. -/
def node_precedence (k : NodeKind) : Int :=
  PRECEDENCE_TABLE (operator_token k).kind

/-- The precedence of the node at the root when it is an interior node. -/
def interior_precedence : Node → Option Int
  | .binary k _ _ => some (node_precedence k)
  | _ => none

/-- For every interior node, a right child that is an interior node has
strictly higher precedence than the node, and a left child that is an interior
node has precedence greater than or equal to the node's. -/
def precedence_correct : Node → Bool
  | .binary k l r =>
    (match interior_precedence r with
      | some p => decide (node_precedence k < p)
      | none => true) &&
    (match interior_precedence l with
      | some p => decide (node_precedence k ≤ p)
      | none => true) &&
    precedence_correct l && precedence_correct r
  | _ => true

def is_operator_kind (k : NodeKind) : Bool :=
  decide (k = .Add ∨ k = .Sub ∨ k = .Mul ∨ k = .Div ∨
    k = .CompareLessThan ∨ k = .CompareGreaterThan)

/-- The node invariant: every interior node has one of the six operator kinds
and both children present; a leaf is a variable node. -/
def node_invariant : Node → Bool
  | .null => false
  | .var _ => true
  | .binary k l r => is_operator_kind k && node_invariant l && node_invariant r

/-- Every interior node is `+ - * /`. -/
def arithmetic_tree : Node → Bool
  | .binary k l r =>
    decide (k = .Add ∨ k = .Sub ∨ k = .Mul ∨ k = .Div) && arithmetic_tree l && arithmetic_tree r
  | _ => true

/-- Every interior node has a leaf as its left child. -/
def left_children_are_leaves : Node → Bool
  | .binary _ (.var _) r => left_children_are_leaves r
  | .binary _ _ _ => false
  | _ => true

/-- The fully right-nested chain `op1(v0, op2(v1, ... opn(v(n-1), vn)))` of the
token sequence `v0 op1 v1 ... opn vn`. -/
def right_nested : List Token → Node
  | [] => .null
  | [v] => .var v.variable_name
  | v :: op :: rest => .binary (to_binary_op op) (.var v.variable_name) (right_nested rest)

/-- Closing a sum: `term` is the last term; `sum` holds the tree of the terms
before it together with the additive operator between them, if any. -/
def close_sum (sum : Option (Node × NodeKind)) (term : Node) : Node :=
  match sum with
  | none => term
  | some (s, k) => .binary k s term

/-- Reading `op v op v ...` from left to right as a sum of products: a
multiplicative operator extends the present term to the left-nested product,
an additive operator ends the term and adds it to the left-nested sum. -/
def reference_tree_loop (sum : Option (Node × NodeKind)) (term : Node) : List Token → Node
  | op :: v :: rest =>
    if op.kind = .Asterisk ∨ op.kind = .Slash then
      reference_tree_loop sum (.binary (to_binary_op op) term (.var v.variable_name)) rest
    else
      reference_tree_loop (some (close_sum sum term, to_binary_op op))
        (.var v.variable_name) rest
  | _ => close_sum sum term

/-- The left-associative, multiplication-before-addition tree of an arithmetic
token sequence `v0 op1 v1 ... opn vn`. -/
def reference_tree : List Token → Node
  | [] => .null
  | v :: rest => reference_tree_loop none (.var v.variable_name) rest

/-- What the tokenizer makes of one character, `none` for a skipped one. -/
def token_of_char (c : Char) : Option Token :=
  if c = '+' then some ⟨.Plus, NUL⟩
  else if c = '-' then some ⟨.Minus, NUL⟩
  else if c = '/' then some ⟨.Slash, NUL⟩
  else if c = '*' then some ⟨.Asterisk, NUL⟩
  else if c = '<' then some ⟨.LessThan, NUL⟩
  else if c = '>' then some ⟨.GreaterThan, NUL⟩
  else if 'a' ≤ c ∧ c ≤ 'z' then some ⟨.Variable, c⟩
  else none

/-- The token list as the description gives it: the characters before the
first NUL, each mapped to its token, in order, the others dropped. -/
def tokenize_spec (source : String) : List Token :=
  (source.toList.takeWhile (fun c => decide (c ≠ NUL))).filterMap token_of_char

/-! ## The parsers as functions of the operand and operator list

A well-formed token sequence is `var_token v :: flat ops`, the first variable
followed by the (operator, variable) pairs. -/

def flat : List (Token × Char) → List Token
  | [] => []
  | x :: rest => x.1 :: var_token x.2 :: flat rest

def naive_tree (v : Char) : List (Token × Char) → Node
  | [] => .var v
  | x :: rest => .binary (to_binary_op x.1) (.var v) (naive_tree x.2 rest)

/-- The single rotation of `parse_expression_tree_rewriting` on a present right
child. -/
def single_rotation (kind : NodeKind) (left right : Node) : Node :=
  match right with
  | .binary k l r =>
    if (kind = .Mul ∨ kind = .Div) ∧ (k = .Add ∨ k = .Sub) then
      .binary k (.binary kind left l) r
    else .binary kind left right
  | _ => .binary kind left right

def rewriting_tree (v : Char) : List (Token × Char) → Node
  | [] => .var v
  | x :: rest => single_rotation (to_binary_op x.1) (.var v) (rewriting_tree x.2 rest)

/-- Where a rotation loop leaves `current_node`: below the nodes of the left
spine of `right` that the condition lets it pass. -/
def descend (rotates : NodeKind → Bool) (kind : NodeKind) (left : Node) : Node → Node
  | .binary k l r =>
    if rotates k then .binary k (descend rotates kind left l) r
    else .binary kind left (.binary k l r)
  | t => .binary kind left t

def complete_step (kind : NodeKind) (left right : Node) : Node :=
  if kind = .Mul ∨ kind = .Div then
    descend (fun k => k = .Mul ∨ k = .Div ∨ k = .Add ∨ k = .Sub) kind left right
  else if kind = .Add ∨ kind = .Sub then
    descend (fun k => k = .Add ∨ k = .Sub) kind left right
  else .binary kind left right

def complete_tree (v : Char) : List (Token × Char) → Node
  | [] => .var v
  | x :: rest => complete_step (to_binary_op x.1) (.var v) (complete_tree x.2 rest)

/-- The loop of `parse_expression` on the pairs still to read: the tree and
the pairs it leaves.  `depth` bounds the number of pairs. -/
def climb : Nat → Node → Int → List (Token × Char) → Node × List (Token × Char)
  | 0, left, _, ops => (left, ops)
  | _ + 1, left, _, [] => (left, [])
  | depth + 1, left, min_precedence, x :: rest =>
    if PRECEDENCE_TABLE x.1.kind ≤ min_precedence then (left, x :: rest)
    else
      let r := climb depth (.var x.2) (PRECEDENCE_TABLE x.1.kind) rest
      climb depth (.binary (to_binary_op x.1) left r.1) min_precedence r.2

def pratt_tree (v : Char) (ops : List (Token × Char)) : Node :=
  (climb ops.length (.var v) (-1) ops).1

/-- What the cursor at offset `o` of `T` has before it: the pairs `ops`, or,
when `ops` is empty, possibly the last variable once more (after an end of
input was pushed back). -/
def View (T : List Token) (o : Nat) (ops : List (Token × Char)) : Prop :=
  T.drop o = flat ops ∧ o ≤ T.length ∨ ops = [] ∧ ∃ c, T.drop o = [var_token c]

/-- The operators of the pairs are operator tokens as the tokenizer makes
them. -/
def OpsOK (ops : List (Token × Char)) : Prop :=
  ∀ x ∈ ops, is_binary_operator x.1 = true ∧ x.1.variable_name = NUL

/-- The precedence at the root, a leaf counting as binding tighter than any
operator. -/
def root_precedence (t : Node) : Int :=
  match interior_precedence t with
  | some p => p
  | none => 4

def is_arithmetic_kind (k : NodeKind) : Bool :=
  decide (k = .Add ∨ k = .Sub ∨ k = .Mul ∨ k = .Div)

/-- The operators of the pairs are none of `<`, `>`. -/
def OpsArith (ops : List (Token × Char)) : Prop :=
  ∀ x ∈ ops, x.1.kind ≠ .LessThan ∧ x.1.kind ≠ .GreaterThan

/-- The tokens the terms before the present one stand for. -/
def sum_tokens : Option (Node × NodeKind) → List Token
  | none => []
  | some (s, k) => in_order s ++ [operator_token k]

/-- What `reference_tree_loop` keeps true of the sum read so far. -/
def SumOK : Option (Node × NodeKind) → Prop
  | none => True
  | some (s, k) => node_invariant s = true ∧ precedence_correct s = true ∧
      2 ≤ root_precedence s ∧ (k = .Add ∨ k = .Sub)

/-- What `reference_tree_loop` keeps true of the term it is building. -/
def TermOK (term : Node) : Prop :=
  node_invariant term = true ∧ precedence_correct term = true ∧ 3 ≤ root_precedence term

/-- No operator after the first one is `<` or `>`. -/
def comparison_only_first (tokens : List Token) : Bool :=
  arithmetic_only (tokens.drop 2)

/-- No leaf has the variable name `(`. -/
def no_paren_leaf : Node → Bool
  | .null => true
  | .var c => decide (c ≠ '(')
  | .binary _ l r => no_paren_leaf l && no_paren_leaf r

/-- The character `print_node2` writes for an operator kind. -/
def operator_char : NodeKind → Char
  | .Add => '+'
  | .Sub => '-'
  | .Mul => '*'
  | .Div => '/'
  | .CompareLessThan => '<'
  | .CompareGreaterThan => '>'
  | _ => ' '

/-- No node of the tree has the kind `Invalid`. -/
def no_invalid : Node → Bool
  | .binary k l r => decide (k ≠ .Invalid) && no_invalid l && no_invalid r
  | _ => true

/-! ## The cursor of the precedence-climbing parser, watched

The functions below are `get_next_token`, `go_back_to_previous_token`,
`parse_leaf` and the three functions of the precedence-climbing parser once
more, with one addition: they stop with `Halt.fault` as soon as the cursor is
out of bounds before or after a cursor operation, or
`go_back_to_previous_token` is called at offset 0.  A run of them that never
stops so is a run in which no such state is reached. -/

/-- The offset is at most the length of the token stream. -/
def cursor_in_bounds (parser : Parser) : Bool :=
  decide (parser.current_token_offset ≤ parser.tokens.length)

def get_next_token_checked (parser : Parser) : Run (Token × Parser) :=
  if cursor_in_bounds parser = true then
    get_next_token parser >>= fun a =>
      if cursor_in_bounds a.2 = true then pure a else .error .fault
  else .error .fault

def go_back_to_previous_token_checked (parser : Parser) : Run Parser :=
  if parser.current_token_offset = 0 then .error .fault
  else if cursor_in_bounds (go_back_to_previous_token parser) = true then
    pure (go_back_to_previous_token parser)
  else .error .fault

def parse_leaf_checked (parser : Parser) : Run (Node × Parser) := do
  let (next_token, parser) ← get_next_token_checked parser
  if next_token.kind ≠ .Variable then return (.null, parser)
  return (make_variable_name_node next_token.variable_name, parser)

mutual

def parse_increasing_precedence_checked : Nat → Parser → Node → Int → Run (Node × Parser)
  | 0, _, _, _ => .error .out_of_fuel
  | fuel + 1, parser, left, min_precedence => do
    let (next_token, parser) ← get_next_token_checked parser
    let precedence := PRECEDENCE_TABLE next_token.kind
    if precedence ≤ min_precedence then
      let parser ← go_back_to_previous_token_checked parser
      return (left, parser)
    if is_binary_operator next_token then
      let (right, parser) ← parse_expression_checked fuel parser precedence
      return (make_binary_op_node (to_binary_op next_token) left right, parser)
    else
      return (left, parser)

def parse_expression_checked : Nat → Parser → Int → Run (Node × Parser)
  | 0, _, _ => .error .out_of_fuel
  | fuel + 1, parser, min_precedence => do
    let (left, parser) ← parse_leaf_checked parser
    parse_expression_loop_checked fuel parser left min_precedence

def parse_expression_loop_checked : Nat → Parser → Node → Int → Run (Node × Parser)
  | 0, _, _, _ => .error .out_of_fuel
  | fuel + 1, parser, left, min_precedence => do
    let (node, parser) ← parse_increasing_precedence_checked fuel parser left min_precedence
    if node = left then return (left, parser)
    parse_expression_loop_checked fuel parser node min_precedence

end

def parse_pratt_checked (fuel : Nat) (source : String) : Run Node := do
  let p : Parser := { tokens := tokenize source, current_token_offset := 0 }
  let (node, _) ← parse_expression_checked fuel p (-1)
  return node

/-- What a call keeps true: the watched function gives what the function
gives, that is no fault, and a result leaves the cursor on the same stream and
in bounds. -/
@[reducible]
def Stays (T : List Token) (checked plain : Run (Node × Parser)) : Prop :=
  checked = plain ∧ plain ≠ .error .fault ∧
    ∀ t p, plain = .ok (t, p) → ∃ o, p = ⟨T, o⟩ ∧ o ≤ T.length

/-! ## The scope of the single-step repair -/

def is_additive (t : Token) : Bool :=
  decide (t.kind = .Plus ∨ t.kind = .Minus)

def is_multiplicative (t : Token) : Bool :=
  decide (t.kind = .Asterisk ∨ t.kind = .Slash)

/-- The operators `op1 ... opn` of a token sequence `v0 op1 v1 ... opn vn`. -/
def operators : List Token → List Token
  | _ :: op :: rest => op :: operators rest
  | _ => []

/-- No two consecutive operators are both multiplicative. -/
def no_adjacent_multiplicative : List Token → Bool
  | [] => true
  | a :: rest =>
    (match rest with
      | b :: _ => !(is_multiplicative a && is_multiplicative b)
      | [] => true) && no_adjacent_multiplicative rest

/-- At most one additive operator and no two consecutive multiplicative
operators. -/
def in_single_step_scope (tokens : List Token) : Bool :=
  decide ((operators tokens).countP is_additive ≤ 1) &&
    no_adjacent_multiplicative (operators tokens)

/-- The shapes `v`, `v*v`, `v+v`, `v*v+v`, `v+v*v`, `v*v+v*v`, an operator
given as `true` when it is multiplicative. -/
def single_step_shapes : List (List Bool) :=
  [[], [true], [false], [true, false], [false, true], [true, false, true]]

/-- The root is an interior node of kind `Add` or `Sub`. -/
def additive_root : Node → Bool
  | .binary k _ _ => decide (k = .Add ∨ k = .Sub)
  | _ => false

/-- The root is an interior node whose left child is a leaf. -/
def left_is_leaf : Node → Bool
  | .binary _ (.var _) _ => true
  | _ => false

/-- The operator tokens of the pairs. -/
def pair_operators (ops : List (Token × Char)) : List Token :=
  ops.map (fun x => x.1)

/-! # Lemmas -/

/-! ## The cursor -/

theorem drop_cons_lt {T : List Token} {o : Nat} {t : Token} {r : List Token}
    (h : T.drop o = t :: r) : o < T.length := by
  by_contra hge
  rw [List.drop_eq_nil_of_le (by omega)] at h
  cases h

theorem get_next_token_cons {T : List Token} {o : Nat} {t : Token} {r : List Token}
    (h : T.drop o = t :: r) :
    get_next_token ⟨T, o⟩ = .ok (t, ⟨T, o + 1⟩) ∧ T.drop (o + 1) = r := by
  have hlt : o < T.length := drop_cons_lt h
  rw [List.drop_eq_getElem_cons hlt] at h
  injection h with h1 h2
  refine ⟨?_, h2⟩
  unfold get_next_token
  simp only [List.getElem?_eq_getElem hlt, h1]
  rw [if_neg (by omega)]

theorem get_next_token_nil {T : List Token} {o : Nat} (h : T.drop o = []) (ho : o ≤ T.length) :
    get_next_token ⟨T, o⟩ = .ok (⟨.EOF, NUL⟩, ⟨T, T.length⟩) := by
  have : T.length ≤ o := List.drop_eq_nil_iff.mp h
  have : o = T.length := by omega
  subst this
  simp [get_next_token]

theorem parse_leaf_var {T : List Token} {o : Nat} {v : Char} {r : List Token}
    (h : T.drop o = var_token v :: r) :
    parse_leaf ⟨T, o⟩ = .ok (.var v, ⟨T, o + 1⟩) := by
  simp [parse_leaf, (get_next_token_cons h).1, bind, Except.bind, pure, Except.pure, var_token,
    make_variable_name_node]

/-- The operator and what follows it, for a cursor that has just read a leaf. -/
theorem after_leaf_nil {T : List Token} {o : Nat} {v : Char}
    (h : T.drop o = var_token v :: flat []) :
    get_next_token ⟨T, o + 1⟩ = .ok (⟨.EOF, NUL⟩, ⟨T, T.length⟩) :=
  get_next_token_nil (get_next_token_cons h).2 (by have := drop_cons_lt h; omega)

theorem after_leaf_cons {T : List Token} {o : Nat} {v : Char} {x : Token × Char}
    {rest : List (Token × Char)} (h : T.drop o = var_token v :: flat (x :: rest)) :
    get_next_token ⟨T, o + 1⟩ = .ok (x.1, ⟨T, o + 1 + 1⟩) ∧
      T.drop (o + 1 + 1) = var_token x.2 :: flat rest :=
  get_next_token_cons (t := x.1) (get_next_token_cons h).2

theorem OpsOK.tail {x : Token × Char} {rest : List (Token × Char)} (h : OpsOK (x :: rest)) :
    OpsOK rest := fun y hy => h y (List.mem_cons_of_mem _ hy)

theorem OpsOK.head {x : Token × Char} {rest : List (Token × Char)} (h : OpsOK (x :: rest)) :
    is_binary_operator x.1 = true ∧ x.1.variable_name = NUL := h x (List.mem_cons_self _ _)

theorem is_operator_kind_to_binary_op {t : Token} (h : is_binary_operator t = true) :
    is_operator_kind (to_binary_op t) = true := by
  obtain ⟨k, c⟩ := t
  cases k <;> simp [is_binary_operator] at h <;> simp [to_binary_op, is_operator_kind]

/-! ## Naive -/

theorem parse_expression_naive_succ (fuel : Nat) (parser : Parser) :
    parse_expression_naive (fuel + 1) parser =
      (parse_leaf parser >>= fun a => get_next_token a.2 >>= fun b =>
        if is_binary_operator b.1 = true then
          parse_expression_naive fuel b.2 >>= fun c =>
            pure (make_binary_op_node (to_binary_op b.1) a.1 c.1, c.2)
        else pure (a.1, b.2)) := rfl

theorem naive_run (ops : List (Token × Char)) : ∀ (v : Char) (T : List Token) (o fuel : Nat),
    T.drop o = var_token v :: flat ops → OpsOK ops → ops.length < fuel →
    parse_expression_naive fuel ⟨T, o⟩ = .ok (naive_tree v ops, ⟨T, T.length⟩) := by
  induction ops with
  | nil =>
    intro v T o fuel h _ hf
    obtain ⟨f, rfl⟩ : ∃ f, fuel = f + 1 := ⟨fuel - 1, by omega⟩
    simp [parse_expression_naive_succ, parse_leaf_var h, after_leaf_nil h, bind, Except.bind,
      pure, Except.pure, is_binary_operator, naive_tree]
  | cons x rest ih =>
    intro v T o fuel h hops hf
    obtain ⟨f, rfl⟩ : ∃ f, fuel = f + 1 := ⟨fuel - 1, by omega⟩
    obtain ⟨h3, h4⟩ := after_leaf_cons h
    have := ih x.2 T (o + 1 + 1) f h4 hops.tail (by simp at hf; omega)
    simp [parse_expression_naive_succ, parse_leaf_var h, h3, bind, Except.bind, pure,
      Except.pure, hops.head.1, this, naive_tree, make_binary_op_node]

/-! ## Single rotation -/

theorem node_invariant_binary {k : NodeKind} {l r : Node} :
    node_invariant (.binary k l r) = true ↔
      is_operator_kind k = true ∧ node_invariant l = true ∧ node_invariant r = true := by
  simp [node_invariant, and_assoc]

theorem single_rotation_invariant {kind : NodeKind} {left right : Node}
    (hk : is_operator_kind kind = true) (hl : node_invariant left = true)
    (hr : node_invariant right = true) :
    node_invariant (single_rotation kind left right) = true := by
  unfold single_rotation
  match right, hr with
  | .var c, _ => simp [node_invariant, hk, hl]
  | .binary k l r, hr =>
    rw [node_invariant_binary] at hr
    simp only
    split <;> simp [node_invariant, hk, hl, hr]

theorem rewriting_tree_invariant (ops : List (Token × Char)) : ∀ v, OpsOK ops →
    node_invariant (rewriting_tree v ops) = true := by
  induction ops with
  | nil => intro v _; rfl
  | cons x rest ih =>
    intro v h
    exact single_rotation_invariant (is_operator_kind_to_binary_op h.head.1) rfl
      (ih x.2 h.tail)

theorem parse_expression_tree_rewriting_succ (fuel : Nat) (parser : Parser) :
    parse_expression_tree_rewriting (fuel + 1) parser =
      (parse_leaf parser >>= fun a => get_next_token a.2 >>= fun b =>
        if is_binary_operator b.1 = true then
          parse_expression_tree_rewriting fuel b.2 >>= fun c =>
            if to_binary_op b.1 = .Mul ∨ to_binary_op b.1 = .Div then
              c.1.kind >>= fun right_kind =>
                if right_kind = .Add ∨ right_kind = .Sub then
                  c.1.left >>= fun right_left =>
                    c.1.set_left (make_binary_op_node (to_binary_op b.1) a.1 right_left) >>=
                      fun result => pure (result, c.2)
                else pure (make_binary_op_node (to_binary_op b.1) a.1 c.1, c.2)
            else pure (make_binary_op_node (to_binary_op b.1) a.1 c.1, c.2)
        else pure (a.1, b.2)) := rfl

theorem rewriting_run (ops : List (Token × Char)) : ∀ (v : Char) (T : List Token) (o fuel : Nat),
    T.drop o = var_token v :: flat ops → OpsOK ops → ops.length < fuel →
    parse_expression_tree_rewriting fuel ⟨T, o⟩ = .ok (rewriting_tree v ops, ⟨T, T.length⟩) := by
  induction ops with
  | nil =>
    intro v T o fuel h _ hf
    obtain ⟨f, rfl⟩ : ∃ f, fuel = f + 1 := ⟨fuel - 1, by omega⟩
    simp [parse_expression_tree_rewriting_succ, parse_leaf_var h, after_leaf_nil h, bind,
      Except.bind, pure, Except.pure, is_binary_operator, rewriting_tree]
  | cons x rest ih =>
    intro v T o fuel h hops hf
    obtain ⟨f, rfl⟩ : ∃ f, fuel = f + 1 := ⟨fuel - 1, by omega⟩
    obtain ⟨h3, h4⟩ := after_leaf_cons h
    have := ih x.2 T (o + 1 + 1) f h4 hops.tail (by simp at hf; omega)
    have hinv := rewriting_tree_invariant rest x.2 hops.tail
    simp only [parse_expression_tree_rewriting_succ, parse_leaf_var h, h3, bind, Except.bind,
      pure, Except.pure, hops.head.1, this, rewriting_tree, make_binary_op_node, if_true]
    generalize rewriting_tree x.2 rest = right at hinv
    match right, hinv with
    | .var c, _ => simp [single_rotation, Node.kind]
    | .binary k l r, _ =>
      simp only [single_rotation, Node.kind, Node.left, Node.set_left]
      by_cases hk : to_binary_op x.1 = .Mul ∨ to_binary_op x.1 = .Div
      · by_cases hk2 : k = .Add ∨ k = .Sub
        · simp [hk, hk2]
        · simp [hk, hk2]
      · simp [hk]


/-! ## Complete rewriting -/

theorem relink_cons (k : NodeKind) (r : Node) (spine : List (NodeKind × Node)) (t : Node) :
    relink ((k, r) :: spine) t = relink spine (.binary k t r) := rfl

theorem rotation_loop_eq (rotates : NodeKind → Bool) (hv : rotates .Variable = false)
    (kind : NodeKind) (left : Node) (right : Node) :
    ∀ spine, node_invariant right = true →
      rotation_loop rotates kind left right spine =
        .ok (relink spine (descend rotates kind left right)) := by
  induction right with
  | null => intro _ h; simp [node_invariant] at h
  | var c => intro spine _; simp [rotation_loop, hv, descend, make_binary_op_node]
  | binary k l r ihl _ =>
    intro spine h
    rw [node_invariant_binary] at h
    unfold rotation_loop descend
    by_cases hk : rotates k = true
    · rw [if_pos hk, if_pos hk, ihl _ h.2.1, relink_cons]
    · rw [if_neg hk, if_neg hk]; rfl

theorem descend_invariant (rotates : NodeKind → Bool) {kind : NodeKind} {left : Node}
    (hk : is_operator_kind kind = true) (hl : node_invariant left = true) (right : Node) :
    node_invariant right = true → node_invariant (descend rotates kind left right) = true := by
  induction right with
  | null => intro h; simp [node_invariant] at h
  | var c => intro _; simp [descend, node_invariant, hk, hl]
  | binary k l r ihl _ =>
    intro h
    have h' := node_invariant_binary.mp h
    unfold descend
    split
    · exact node_invariant_binary.mpr ⟨h'.1, ihl h'.2.1, h'.2.2⟩
    · exact node_invariant_binary.mpr ⟨hk, hl, h⟩

theorem complete_step_invariant {kind : NodeKind} {left right : Node}
    (hk : is_operator_kind kind = true) (hl : node_invariant left = true)
    (hr : node_invariant right = true) :
    node_invariant (complete_step kind left right) = true := by
  unfold complete_step
  split
  · exact descend_invariant _ hk hl right hr
  · split
    · exact descend_invariant _ hk hl right hr
    · exact node_invariant_binary.mpr ⟨hk, hl, hr⟩

theorem complete_tree_invariant (ops : List (Token × Char)) : ∀ v, OpsOK ops →
    node_invariant (complete_tree v ops) = true := by
  induction ops with
  | nil => intro v _; rfl
  | cons x rest ih =>
    intro v h
    exact complete_step_invariant (is_operator_kind_to_binary_op h.head.1) rfl (ih x.2 h.tail)

theorem parse_expression_tree_rewriting_complete_succ (fuel : Nat) (parser : Parser) :
    parse_expression_tree_rewriting_complete (fuel + 1) parser =
      (parse_leaf parser >>= fun a => get_next_token a.2 >>= fun b =>
        if is_binary_operator b.1 = true then
          parse_expression_tree_rewriting_complete fuel b.2 >>= fun c =>
            if to_binary_op b.1 = .Mul ∨ to_binary_op b.1 = .Div then
              rotation_loop (fun k => k = .Mul ∨ k = .Div ∨ k = .Add ∨ k = .Sub)
                (to_binary_op b.1) a.1 c.1 [] >>= fun root => pure (root, c.2)
            else if to_binary_op b.1 = .Add ∨ to_binary_op b.1 = .Sub then
              rotation_loop (fun k => k = .Add ∨ k = .Sub)
                (to_binary_op b.1) a.1 c.1 [] >>= fun root => pure (root, c.2)
            else pure (make_binary_op_node (to_binary_op b.1) a.1 c.1, c.2)
        else pure (a.1, b.2)) := rfl

theorem complete_run (ops : List (Token × Char)) : ∀ (v : Char) (T : List Token) (o fuel : Nat),
    T.drop o = var_token v :: flat ops → OpsOK ops → ops.length < fuel →
    parse_expression_tree_rewriting_complete fuel ⟨T, o⟩ =
      .ok (complete_tree v ops, ⟨T, T.length⟩) := by
  induction ops with
  | nil =>
    intro v T o fuel h _ hf
    obtain ⟨f, rfl⟩ : ∃ f, fuel = f + 1 := ⟨fuel - 1, by omega⟩
    simp [parse_expression_tree_rewriting_complete_succ, parse_leaf_var h, after_leaf_nil h,
      bind, Except.bind, pure, Except.pure, is_binary_operator, complete_tree]
  | cons x rest ih =>
    intro v T o fuel h hops hf
    obtain ⟨f, rfl⟩ : ∃ f, fuel = f + 1 := ⟨fuel - 1, by omega⟩
    obtain ⟨h3, h4⟩ := after_leaf_cons h
    have := ih x.2 T (o + 1 + 1) f h4 hops.tail (by simp at hf; omega)
    have hinv := complete_tree_invariant rest x.2 hops.tail
    simp only [parse_expression_tree_rewriting_complete_succ, parse_leaf_var h, h3, bind,
      Except.bind, pure, Except.pure, hops.head.1, this, complete_tree, make_binary_op_node,
      if_true]
    rw [rotation_loop_eq _ (by simp) _ _ _ [] hinv, rotation_loop_eq _ (by simp) _ _ _ [] hinv]
    unfold complete_step
    by_cases hk : to_binary_op x.1 = .Mul ∨ to_binary_op x.1 = .Div
    · simp [hk, relink]
    · by_cases hk2 : to_binary_op x.1 = .Add ∨ to_binary_op x.1 = .Sub
      · simp [hk, hk2, relink]
      · simp [hk, hk2]

/-! ## Precedence climbing -/

theorem binary_ne_left (k : NodeKind) (l r : Node) : Node.binary k l r ≠ l := by
  intro h
  have := congrArg sizeOf h
  simp at this
  omega

theorem climb_suffix : ∀ (depth : Nat) (left : Node) (m : Int) (ops : List (Token × Char)),
    (climb depth left m ops).2 <:+ ops := by
  intro depth
  induction depth with
  | zero => intro left m ops; exact List.suffix_refl _
  | succ d ih =>
    intro left m ops
    cases ops with
    | nil => exact List.suffix_refl _
    | cons x rest =>
      unfold climb
      split
      · exact List.suffix_refl _
      · exact ((ih _ _ _).trans (ih _ _ rest)).trans (List.suffix_cons x rest)

theorem OpsOK.suffix {a b : List (Token × Char)} (h : OpsOK b) (hs : a <:+ b) : OpsOK a :=
  fun x hx => h x (hs.subset hx)

theorem go_back_after_next {T : List Token} {o : Nat} (h : o + 1 ≤ T.length)
    (hT : T.length < SIZE_MODULUS) :
    go_back_to_previous_token ⟨T, o + 1⟩ = ⟨T, o⟩ := by
  have hmod : (o + 1 + (SIZE_MODULUS - 1)) % SIZE_MODULUS = o := by
    simp only [SIZE_MODULUS] at *
    omega
  simp only [go_back_to_previous_token, hmod]

theorem parse_increasing_precedence_succ (fuel : Nat) (parser : Parser) (left : Node)
    (m : Int) :
    parse_increasing_precedence (fuel + 1) parser left m =
      (get_next_token parser >>= fun a =>
        if PRECEDENCE_TABLE a.1.kind ≤ m then pure (left, go_back_to_previous_token a.2)
        else if is_binary_operator a.1 = true then
          parse_expression fuel a.2 (PRECEDENCE_TABLE a.1.kind) >>= fun c =>
            pure (make_binary_op_node (to_binary_op a.1) left c.1, c.2)
        else pure (left, a.2)) := by
  rw [parse_increasing_precedence]
  rfl

theorem parse_expression_succ (fuel : Nat) (parser : Parser) (m : Int) :
    parse_expression (fuel + 1) parser m =
      (parse_leaf parser >>= fun a => parse_expression_loop fuel a.2 a.1 m) := by
  rw [parse_expression]

theorem parse_expression_loop_succ (fuel : Nat) (parser : Parser) (left : Node) (m : Int) :
    parse_expression_loop (fuel + 1) parser left m =
      (parse_increasing_precedence fuel parser left m >>= fun a =>
        if a.1 = left then pure (left, a.2)
        else parse_expression_loop fuel a.2 a.1 m) := by
  rw [parse_expression_loop]
  rfl

theorem precedence_nonneg (k : TokenKind) : 0 ≤ PRECEDENCE_TABLE k := by
  cases k <;> simp [PRECEDENCE_TABLE]

theorem pratt_loop_run (T : List Token) (hT : T.length < SIZE_MODULUS)
    (hlast : ∃ c, T.drop (T.length - 1) = [var_token c]) :
    ∀ (depth : Nat) (ops : List (Token × Char)) (left : Node) (m : Int) (o fuel : Nat),
      ops.length ≤ depth → 3 * depth + 2 ≤ fuel → View T o ops → OpsOK ops → -1 ≤ m →
      ∃ o', parse_expression_loop fuel ⟨T, o⟩ left m =
          .ok ((climb depth left m ops).1, ⟨T, o'⟩) ∧
        View T o' (climb depth left m ops).2 := by
  have hpos : 1 ≤ T.length := by
    obtain ⟨c, hc⟩ := hlast
    have := drop_cons_lt hc
    omega
  -- the two ways the loop ends at the end of the input
  have hend : ∀ (depth : Nat) (left : Node) (m : Int) (o fuel : Nat), 2 ≤ fuel →
      View T o [] → -1 ≤ m →
      ∃ o', parse_expression_loop fuel ⟨T, o⟩ left m =
          .ok ((climb depth left m []).1, ⟨T, o'⟩) ∧
        View T o' (climb depth left m []).2 := by
    intro depth left m o fuel hf hview hm
    obtain ⟨f, rfl⟩ : ∃ f, fuel = f + 1 + 1 := ⟨fuel - 2, by omega⟩
    have hclimb : climb depth left m [] = (left, []) := by cases depth <;> rfl
    rw [hclimb]
    rcases hview with ⟨hd, ho⟩ | ⟨_, c, hc⟩
    · have hnext := get_next_token_nil hd ho
      by_cases hm0 : 0 ≤ m
      · refine ⟨T.length - 1, ?_, Or.inr ⟨rfl, hlast⟩⟩
        have hback : go_back_to_previous_token ⟨T, T.length⟩ = ⟨T, T.length - 1⟩ := by
          have := go_back_after_next (T := T) (o := T.length - 1) (by omega) hT
          rwa [Nat.sub_add_cancel hpos] at this
        simp [parse_expression_loop_succ, parse_increasing_precedence_succ, hnext, bind,
          Except.bind, pure, Except.pure, PRECEDENCE_TABLE, hm0, hback]
      · refine ⟨T.length, ?_, Or.inl ⟨by simp [flat], le_refl _⟩⟩
        simp [parse_expression_loop_succ, parse_increasing_precedence_succ, hnext, bind,
          Except.bind, pure, Except.pure, PRECEDENCE_TABLE, hm0, is_binary_operator]
    · obtain ⟨hnext, hd⟩ := get_next_token_cons hc
      have hlt := drop_cons_lt hc
      by_cases hm0 : 0 ≤ m
      · refine ⟨o, ?_, Or.inr ⟨rfl, c, hc⟩⟩
        simp [parse_expression_loop_succ, parse_increasing_precedence_succ, hnext, bind,
          Except.bind, pure, Except.pure, PRECEDENCE_TABLE, hm0, var_token,
          go_back_after_next (show o + 1 ≤ T.length by omega) hT]
      · refine ⟨o + 1, ?_, Or.inl ⟨by simpa [flat] using hd, by omega⟩⟩
        simp [parse_expression_loop_succ, parse_increasing_precedence_succ, hnext, bind,
          Except.bind, pure, Except.pure, PRECEDENCE_TABLE, hm0, is_binary_operator, var_token]
  intro depth
  induction depth with
  | zero =>
    intro ops left m o fuel hlen hf hview _ hm
    have : ops = [] := List.length_eq_zero.mp (by omega)
    subst this
    exact hend 0 left m o fuel (by omega) hview hm
  | succ d ih =>
    intro ops left m o fuel hlen hf hview hops hm
    cases ops with
    | nil => exact hend (d + 1) left m o fuel (by omega) hview hm
    | cons x rest =>
      rcases hview with ⟨hd, ho⟩ | ⟨hnil, _⟩
      swap
      · cases hnil
      obtain ⟨f, rfl⟩ : ∃ f, fuel = f + 1 + 1 + 1 + 1 := ⟨fuel - 4, by omega⟩
      have hd' : T.drop o = x.1 :: var_token x.2 :: flat rest := hd
      obtain ⟨hnext, hd1⟩ := get_next_token_cons hd'
      have hlt := drop_cons_lt hd'
      by_cases hp : PRECEDENCE_TABLE x.1.kind ≤ m
      · refine ⟨o, ?_, ?_⟩
        · simp [parse_expression_loop_succ, parse_increasing_precedence_succ, hnext, bind,
            Except.bind, pure, Except.pure, hp, climb,
            go_back_after_next (show o + 1 ≤ T.length by omega) hT]
        · simp only [climb, if_pos hp]
          exact Or.inl ⟨hd, ho⟩
      · have hleaf := parse_leaf_var hd1
        have hd2 := (get_next_token_cons hd1).2
        have hlt1 := drop_cons_lt hd1
        have hsuf1 := climb_suffix d (.var x.2) (PRECEDENCE_TABLE x.1.kind) rest
        obtain ⟨o1, hrun1, hview1⟩ := ih rest (.var x.2) (PRECEDENCE_TABLE x.1.kind) (o + 1 + 1)
          (f + 1) (by simp at hlen; omega) (by omega) (Or.inl ⟨hd2, by omega⟩) hops.tail
          (by have := precedence_nonneg x.1.kind; omega)
        obtain ⟨o2, hrun2, hview2⟩ := ih
          (climb d (.var x.2) (PRECEDENCE_TABLE x.1.kind) rest).2
          (.binary (to_binary_op x.1) left
            (climb d (.var x.2) (PRECEDENCE_TABLE x.1.kind) rest).1) m o1 (f + 1 + 1 + 1)
          (by have := hsuf1.length_le; simp at hlen; omega) (by omega) hview1
          (hops.tail.suffix hsuf1) hm
        refine ⟨o2, ?_, ?_⟩
        · rw [parse_expression_loop_succ, parse_increasing_precedence_succ]
          simp only [hnext, bind, Except.bind, pure, Except.pure, if_neg hp, hops.head.1,
            if_true, parse_expression_succ, hleaf, hrun1, make_binary_op_node,
            if_neg (binary_ne_left _ _ _), hrun2]
          simp only [climb, if_neg hp]
        · simp only [climb, if_neg hp]
          exact hview2

/-! ## In-order traversal -/

theorem operator_token_to_binary_op {t : Token}
    (h : is_binary_operator t = true ∧ t.variable_name = NUL) :
    operator_token (to_binary_op t) = t := by
  obtain ⟨k, c⟩ := t
  obtain ⟨h1, h2⟩ := h
  simp only at h2
  subst h2
  cases k <;> simp [is_binary_operator] at h1 <;> simp [to_binary_op, operator_token]

theorem node_precedence_to_binary_op {t : Token} (h : is_binary_operator t = true) :
    node_precedence (to_binary_op t) = PRECEDENCE_TABLE t.kind := by
  obtain ⟨k, c⟩ := t
  cases k <;> simp [is_binary_operator] at h <;>
    simp [to_binary_op, operator_token, node_precedence]

theorem in_order_naive_tree (ops : List (Token × Char)) : ∀ v, OpsOK ops →
    in_order (naive_tree v ops) = var_token v :: flat ops := by
  induction ops with
  | nil => intro v _; rfl
  | cons x rest ih =>
    intro v h
    simp [naive_tree, in_order, ih x.2 h.tail, operator_token_to_binary_op h.head, flat]

theorem in_order_single_rotation (kind : NodeKind) (left right : Node) :
    in_order (single_rotation kind left right) =
      in_order left ++ operator_token kind :: in_order right := by
  unfold single_rotation
  split
  · split <;> simp [in_order]
  · simp [in_order]

theorem in_order_rewriting_tree (ops : List (Token × Char)) : ∀ v, OpsOK ops →
    in_order (rewriting_tree v ops) = var_token v :: flat ops := by
  induction ops with
  | nil => intro v _; rfl
  | cons x rest ih =>
    intro v h
    simp [rewriting_tree, in_order_single_rotation, in_order, ih x.2 h.tail,
      operator_token_to_binary_op h.head, flat]

theorem in_order_descend (rotates : NodeKind → Bool) (kind : NodeKind) (left right : Node) :
    in_order (descend rotates kind left right) =
      in_order left ++ operator_token kind :: in_order right := by
  induction right with
  | null => simp [descend, in_order]
  | var c => simp [descend, in_order]
  | binary k l r ihl _ =>
    unfold descend
    split
    · simp [in_order, ihl]
    · simp [in_order]

theorem in_order_complete_step (kind : NodeKind) (left right : Node) :
    in_order (complete_step kind left right) =
      in_order left ++ operator_token kind :: in_order right := by
  unfold complete_step
  split
  · exact in_order_descend _ _ _ _
  · split
    · exact in_order_descend _ _ _ _
    · simp [in_order]

theorem in_order_complete_tree (ops : List (Token × Char)) : ∀ v, OpsOK ops →
    in_order (complete_tree v ops) = var_token v :: flat ops := by
  induction ops with
  | nil => intro v _; rfl
  | cons x rest ih =>
    intro v h
    simp [complete_tree, in_order_complete_step, in_order, ih x.2 h.tail,
      operator_token_to_binary_op h.head, flat]

theorem in_order_climb : ∀ (depth : Nat) (left : Node) (m : Int) (ops : List (Token × Char)),
    OpsOK ops →
    in_order (climb depth left m ops).1 ++ flat (climb depth left m ops).2 =
      in_order left ++ flat ops := by
  intro depth
  induction depth with
  | zero => intro left m ops _; rfl
  | succ d ih =>
    intro left m ops hops
    cases ops with
    | nil => rfl
    | cons x rest =>
      unfold climb
      split
      · rfl
      · have h1 := ih (.var x.2) (PRECEDENCE_TABLE x.1.kind) rest hops.tail
        have hsuf := climb_suffix d (.var x.2) (PRECEDENCE_TABLE x.1.kind) rest
        rw [ih _ _ _ (hops.tail.suffix hsuf)]
        simp only [in_order, List.append_assoc, List.cons_append, h1,
          operator_token_to_binary_op hops.head, flat, List.singleton_append, List.nil_append]

/-! ## Precedence climbing builds a precedence-correct tree -/

theorem precedence_le_three (k : TokenKind) : PRECEDENCE_TABLE k ≤ 3 := by
  cases k <;> simp [PRECEDENCE_TABLE]

theorem precedence_correct_binary {k : NodeKind} {l r : Node} :
    precedence_correct (.binary k l r) = true ↔
      (node_precedence k < root_precedence r ∨ interior_precedence r = none) ∧
      (node_precedence k ≤ root_precedence l ∨ interior_precedence l = none) ∧
      precedence_correct l = true ∧ precedence_correct r = true := by
  unfold root_precedence
  cases hr : interior_precedence r <;> cases hl : interior_precedence l <;>
    simp [precedence_correct, hr, hl, and_assoc]

theorem climb_head_le : ∀ (depth : Nat) (left : Node) (m : Int) (ops : List (Token × Char)),
    ops.length ≤ depth →
    ∀ y ∈ (climb depth left m ops).2.head?, PRECEDENCE_TABLE y.1.kind ≤ m := by
  intro depth
  induction depth with
  | zero =>
    intro left m ops hlen
    have : ops = [] := List.length_eq_zero.mp (by omega)
    subst this
    simp [climb]
  | succ d ih =>
    intro left m ops hlen
    cases ops with
    | nil => simp [climb]
    | cons x rest =>
      unfold climb
      split
      · rename_i hp
        simpa using hp
      · have hsuf := climb_suffix d (.var x.2) (PRECEDENCE_TABLE x.1.kind) rest
        exact ih _ _ _ (by have := hsuf.length_le; simp at hlen; omega)

theorem climb_precedence_correct : ∀ (depth : Nat) (left : Node) (m : Int)
    (ops : List (Token × Char)), ops.length ≤ depth → OpsOK ops →
    precedence_correct left = true → m < root_precedence left →
    (∀ y ∈ ops.head?, PRECEDENCE_TABLE y.1.kind ≤ root_precedence left) →
    precedence_correct (climb depth left m ops).1 = true ∧
      m < root_precedence (climb depth left m ops).1 := by
  intro depth
  induction depth with
  | zero => intro left m ops _ _ hl hm _; exact ⟨hl, hm⟩
  | succ d ih =>
    intro left m ops hlen hops hl hm hhead
    cases ops with
    | nil => exact ⟨hl, hm⟩
    | cons x rest =>
      unfold climb
      split
      · exact ⟨hl, hm⟩
      · rename_i hp
        have hsuf := climb_suffix d (.var x.2) (PRECEDENCE_TABLE x.1.kind) rest
        have hlen' : rest.length ≤ d := by simp at hlen; omega
        have h3 := precedence_le_three x.1.kind
        obtain ⟨hc1, hr1⟩ := ih (.var x.2) (PRECEDENCE_TABLE x.1.kind) rest hlen' hops.tail rfl
          (by simp [root_precedence, interior_precedence]; omega)
          (fun y _ => by
            have := precedence_le_three y.1.kind
            simp [root_precedence, interior_precedence]; omega)
        have hhd := climb_head_le d (.var x.2) (PRECEDENCE_TABLE x.1.kind) rest hlen'
        have hnp := node_precedence_to_binary_op hops.head.1
        refine ih _ m _ (by have := hsuf.length_le; omega) (hops.tail.suffix hsuf) ?_ ?_ ?_
        · rw [precedence_correct_binary, hnp]
          refine ⟨Or.inl hr1, Or.inl ?_, hl, hc1⟩
          exact hhead x (by simp)
        · simp only [root_precedence, interior_precedence, hnp]
          omega
        · intro y hy
          simp only [root_precedence, interior_precedence, hnp]
          exact hhd y hy

theorem climb_invariant : ∀ (depth : Nat) (left : Node) (m : Int) (ops : List (Token × Char)),
    OpsOK ops → node_invariant left = true →
    node_invariant (climb depth left m ops).1 = true := by
  intro depth
  induction depth with
  | zero => intro left m ops _ hl; exact hl
  | succ d ih =>
    intro left m ops hops hl
    cases ops with
    | nil => exact hl
    | cons x rest =>
      unfold climb
      split
      · exact hl
      · have hsuf := climb_suffix d (.var x.2) (PRECEDENCE_TABLE x.1.kind) rest
        refine ih _ m _ (hops.tail.suffix hsuf) ?_
        exact node_invariant_binary.mpr
          ⟨is_operator_kind_to_binary_op hops.head.1, hl, ih _ _ _ hops.tail rfl⟩

theorem climb_all (ops : List (Token × Char)) (left : Node) :
    (climb ops.length left (-1) ops).2 = [] := by
  have h := climb_head_le ops.length left (-1) ops (le_refl _)
  cases hc : (climb ops.length left (-1) ops).2 with
  | nil => rfl
  | cons y ys =>
    have := h y (by simp [hc])
    have := precedence_nonneg y.1.kind
    omega

theorem in_order_pratt_tree (v : Char) (ops : List (Token × Char)) (h : OpsOK ops) :
    in_order (pratt_tree v ops) = var_token v :: flat ops := by
  have := in_order_climb ops.length (.var v) (-1) ops h
  rw [climb_all, flat, List.append_nil] at this
  simpa [pratt_tree, in_order] using this

theorem pratt_tree_precedence_correct (v : Char) (ops : List (Token × Char)) (h : OpsOK ops) :
    precedence_correct (pratt_tree v ops) = true :=
  (climb_precedence_correct ops.length (.var v) (-1) ops (le_refl _) h rfl
    (by simp [root_precedence, interior_precedence])
    (fun y _ => by
      have := precedence_le_three y.1.kind
      simp [root_precedence, interior_precedence]; omega)).1

theorem pratt_tree_invariant (v : Char) (ops : List (Token × Char)) (h : OpsOK ops) :
    node_invariant (pratt_tree v ops) = true :=
  climb_invariant _ _ _ _ h rfl

/-! ## Complete rewriting on arithmetic operators -/

theorem arithmetic_tree_binary {k : NodeKind} {l r : Node} :
    arithmetic_tree (.binary k l r) = true ↔
      is_arithmetic_kind k = true ∧ arithmetic_tree l = true ∧ arithmetic_tree r = true := by
  simp [arithmetic_tree, is_arithmetic_kind, and_assoc]

theorem root_precedence_binary (k : NodeKind) (l r : Node) :
    root_precedence (.binary k l r) = node_precedence k := rfl

theorem descend_root_ge (rotates : NodeKind → Bool) (kind : NodeKind) (left t : Node) (p : Int)
    (hk : p ≤ node_precedence kind) (ht : p ≤ root_precedence t ∨ interior_precedence t = none) :
    p ≤ root_precedence (descend rotates kind left t) := by
  cases t with
  | null => simpa [descend, root_precedence, interior_precedence] using hk
  | var c => simpa [descend, root_precedence, interior_precedence] using hk
  | binary k l r =>
    unfold descend
    split
    · rcases ht with ht | ht
      · simpa [root_precedence, interior_precedence] using ht
      · simp [interior_precedence] at ht
    · simpa [root_precedence, interior_precedence] using hk

theorem descend_precedence_correct (rotates : NodeKind → Bool) (kind : NodeKind) (left : Node)
    (hleaf : interior_precedence left = none) (hleft : precedence_correct left = true)
    (hstop : ∀ k, is_arithmetic_kind k = true → rotates k = false →
      node_precedence kind < node_precedence k)
    (hgo : ∀ k, is_arithmetic_kind k = true → rotates k = true →
      node_precedence k ≤ node_precedence kind) :
    ∀ right, arithmetic_tree right = true → precedence_correct right = true →
      precedence_correct (descend rotates kind left right) = true := by
  intro right
  induction right with
  | null =>
    intro _ _
    exact precedence_correct_binary.mpr ⟨Or.inr rfl, Or.inr hleaf, hleft, rfl⟩
  | var c =>
    intro _ _
    exact precedence_correct_binary.mpr ⟨Or.inr rfl, Or.inr hleaf, hleft, rfl⟩
  | binary k l r ihl _ =>
    intro ha hc
    have ha' := arithmetic_tree_binary.mp ha
    have hc' := precedence_correct_binary.mp hc
    unfold descend
    by_cases hr : rotates k = true
    · rw [if_pos hr, precedence_correct_binary]
      refine ⟨hc'.1, Or.inl ?_, ihl ha'.2.1 hc'.2.2.1, hc'.2.2.2⟩
      exact descend_root_ge rotates kind left l _ (hgo k ha'.1 hr) hc'.2.1
    · rw [if_neg hr, precedence_correct_binary]
      refine ⟨Or.inl ?_, Or.inr hleaf, hleft, hc⟩
      rw [root_precedence_binary]
      exact hstop k ha'.1 (by simpa using hr)

theorem descend_arithmetic (rotates : NodeKind → Bool) (kind : NodeKind) (left : Node)
    (hk : is_arithmetic_kind kind = true) (hl : arithmetic_tree left = true) :
    ∀ right, arithmetic_tree right = true →
      arithmetic_tree (descend rotates kind left right) = true := by
  intro right
  induction right with
  | null => intro _; exact arithmetic_tree_binary.mpr ⟨hk, hl, rfl⟩
  | var c => intro _; exact arithmetic_tree_binary.mpr ⟨hk, hl, rfl⟩
  | binary k l r ihl _ =>
    intro ha
    have ha' := arithmetic_tree_binary.mp ha
    unfold descend
    split
    · exact arithmetic_tree_binary.mpr ⟨ha'.1, ihl ha'.2.1, ha'.2.2⟩
    · exact arithmetic_tree_binary.mpr ⟨hk, hl, ha⟩

theorem is_arithmetic_kind_to_binary_op {t : Token} (h : is_binary_operator t = true)
    (ha : t.kind ≠ .LessThan ∧ t.kind ≠ .GreaterThan) :
    is_arithmetic_kind (to_binary_op t) = true := by
  obtain ⟨k, c⟩ := t
  cases k <;> simp [is_binary_operator] at h <;> simp at ha <;>
    simp [to_binary_op, is_arithmetic_kind]

theorem OpsArith.rest_arith {x : Token × Char} {rest : List (Token × Char)}
    (h : OpsArith (x :: rest)) : OpsArith rest := fun y hy => h y (List.mem_cons_of_mem _ hy)

theorem complete_step_arithmetic {kind : NodeKind} {c : Char} {right : Node}
    (hk : is_arithmetic_kind kind = true) (ha : arithmetic_tree right = true)
    (hc : precedence_correct right = true) :
    arithmetic_tree (complete_step kind (.var c) right) = true ∧
      precedence_correct (complete_step kind (.var c) right) = true := by
  unfold complete_step
  by_cases h1 : kind = .Mul ∨ kind = .Div
  · rw [if_pos h1]
    refine ⟨descend_arithmetic _ kind (.var c) hk rfl _ ha,
      descend_precedence_correct _ kind (.var c) rfl rfl ?_ ?_ _ ha hc⟩
    · intro k hk' hr
      cases k <;> simp [is_arithmetic_kind] at hk' <;> simp at hr
    · intro k hk' _
      rcases h1 with rfl | rfl <;> cases k <;> simp [is_arithmetic_kind] at hk' <;>
        simp [node_precedence, operator_token, PRECEDENCE_TABLE]
  · have h2 : kind = .Add ∨ kind = .Sub := by
      cases kind <;> simp [is_arithmetic_kind] at hk <;> simp at h1 <;> simp
    rw [if_neg h1, if_pos h2]
    refine ⟨descend_arithmetic _ kind (.var c) hk rfl _ ha,
      descend_precedence_correct _ kind (.var c) rfl rfl ?_ ?_ _ ha hc⟩
    · intro k hk' hr
      rcases h2 with rfl | rfl <;> cases k <;> simp [is_arithmetic_kind] at hk' <;>
        simp at hr <;> simp [node_precedence, operator_token, PRECEDENCE_TABLE]
    · intro k hk' hr
      rcases h2 with rfl | rfl <;> cases k <;> simp [is_arithmetic_kind] at hk' <;>
        simp at hr <;> simp [node_precedence, operator_token, PRECEDENCE_TABLE]

theorem complete_tree_arithmetic (ops : List (Token × Char)) : ∀ v, OpsOK ops → OpsArith ops →
    arithmetic_tree (complete_tree v ops) = true ∧
      precedence_correct (complete_tree v ops) = true := by
  induction ops with
  | nil => intro v _ _; exact ⟨rfl, rfl⟩
  | cons x rest ih =>
    intro v h ha
    obtain ⟨h1, h2⟩ := ih x.2 h.tail ha.rest_arith
    exact complete_step_arithmetic
      (is_arithmetic_kind_to_binary_op h.head.1 (ha x (List.mem_cons_self _ _))) h1 h2

/-! ## A precedence-correct tree is determined by its in-order traversal -/

theorem operator_token_injective {k1 k2 : NodeKind} (h : operator_token k1 = operator_token k2) :
    k1 = k2 := by
  cases k1 <;> cases k2 <;> simp [operator_token] at h <;> rfl

theorem is_binary_operator_operator_token {k : NodeKind} (h : is_operator_kind k = true) :
    is_binary_operator (operator_token k) = true := by
  cases k <;> simp [is_operator_kind] at h <;> simp [operator_token, is_binary_operator]

theorem in_order_precedence_ge : ∀ (t : Node) (p : Int), precedence_correct t = true →
    (p ≤ root_precedence t ∨ interior_precedence t = none) →
    ∀ tok ∈ in_order t, is_binary_operator tok = true → p ≤ PRECEDENCE_TABLE tok.kind := by
  intro t
  induction t with
  | null => intro p _ _ tok h; simp [in_order] at h
  | var c =>
    intro p _ _ tok h hb
    simp only [in_order, List.mem_singleton] at h
    subst h
    simp [is_binary_operator, var_token] at hb
  | binary k l r ihl ihr =>
    intro p hc hp tok h hb
    have hc' := precedence_correct_binary.mp hc
    have hpk : p ≤ node_precedence k := by
      rcases hp with hp | hp
      · exact hp
      · simp [interior_precedence] at hp
    simp only [in_order, List.mem_append, List.mem_cons] at h
    rcases h with h | h | h
    · refine ihl p hc'.2.2.1 ?_ tok h hb
      rcases hc'.2.1 with h' | h'
      · exact Or.inl (le_trans hpk h')
      · exact Or.inr h'
    · subst h
      exact hpk
    · refine ihr p hc'.2.2.2 ?_ tok h hb
      rcases hc'.1 with h' | h'
      · exact Or.inl (le_trans hpk (le_of_lt h'))
      · exact Or.inr h'

theorem in_order_left_ge {k : NodeKind} {l r : Node} (hc : precedence_correct (.binary k l r) = true)
    {tok : Token} (h : tok ∈ in_order l) (hb : is_binary_operator tok = true) :
    node_precedence k ≤ PRECEDENCE_TABLE tok.kind :=
  have hc' := precedence_correct_binary.mp hc
  in_order_precedence_ge l _ hc'.2.2.1 hc'.2.1 tok h hb

theorem in_order_right_gt {k : NodeKind} {l r : Node} (hc : precedence_correct (.binary k l r) = true)
    {tok : Token} (h : tok ∈ in_order r) (hb : is_binary_operator tok = true) :
    node_precedence k < PRECEDENCE_TABLE tok.kind := by
  have hc' := precedence_correct_binary.mp hc
  have := in_order_precedence_ge r (node_precedence k + 1) hc'.2.2.2
    (by rcases hc'.1 with h' | h'
        · exact Or.inl (by omega)
        · exact Or.inr h') tok h hb
  omega

theorem precedence_operator_token (k : NodeKind) :
    PRECEDENCE_TABLE (operator_token k).kind = node_precedence k := rfl

theorem in_order_split {k1 k2 : NodeKind} {l1 r1 l2 r2 : Node}
    (hi1 : node_invariant (.binary k1 l1 r1) = true)
    (hi2 : node_invariant (.binary k2 l2 r2) = true)
    (hc1 : precedence_correct (.binary k1 l1 r1) = true)
    (hc2 : precedence_correct (.binary k2 l2 r2) = true)
    (h : in_order (.binary k1 l1 r1) = in_order (.binary k2 l2 r2)) :
    in_order l1 = in_order l2 ∧ k1 = k2 ∧ in_order r1 = in_order r2 := by
  have hb1 := is_binary_operator_operator_token (node_invariant_binary.mp hi1).1
  have hb2 := is_binary_operator_operator_token (node_invariant_binary.mp hi2).1
  simp only [in_order] at h
  rcases List.append_eq_append_iff.mp h with ⟨a, ha1, ha2⟩ | ⟨a, ha1, ha2⟩
  · cases a with
    | nil =>
      simp only [List.nil_append, List.cons.injEq] at ha2
      exact ⟨by simpa using ha1.symm, operator_token_injective ha2.1, ha2.2⟩
    | cons z a =>
      simp only [List.cons_append, List.cons.injEq] at ha2
      have hm1 : operator_token k1 ∈ in_order l2 := by rw [ha1, ha2.1]; simp
      have hm2 : operator_token k2 ∈ in_order r1 := by rw [ha2.2]; simp
      have := in_order_left_ge hc2 hm1 hb1
      have := in_order_right_gt hc1 hm2 hb2
      simp only [precedence_operator_token] at *
      omega
  · cases a with
    | nil =>
      simp only [List.nil_append, List.cons.injEq] at ha2
      exact ⟨by simpa using ha1, (operator_token_injective ha2.1).symm, ha2.2.symm⟩
    | cons z a =>
      simp only [List.cons_append, List.cons.injEq] at ha2
      have hm1 : operator_token k2 ∈ in_order l1 := by rw [ha1, ha2.1]; simp
      have hm2 : operator_token k1 ∈ in_order r2 := by rw [ha2.2]; simp
      have := in_order_left_ge hc1 hm1 hb2
      have := in_order_right_gt hc2 hm2 hb1
      simp only [precedence_operator_token] at *
      omega

theorem var_token_ne_operator_token {c : Char} {k : NodeKind} (hk : is_operator_kind k = true) :
    var_token c ≠ operator_token k := by
  cases k <;> simp [is_operator_kind] at hk <;> simp [var_token, operator_token]

theorem precedence_correct_unique : ∀ t1 t2 : Node, node_invariant t1 = true →
    node_invariant t2 = true → precedence_correct t1 = true → precedence_correct t2 = true →
    in_order t1 = in_order t2 → t1 = t2 := by
  intro t1
  induction t1 with
  | null => intro t2 h; simp [node_invariant] at h
  | var c =>
    intro t2 _ hi2 _ _ h
    cases t2 with
    | null => simp [node_invariant] at hi2
    | var c2 => simpa [in_order, var_token] using h
    | binary k l r =>
      exfalso
      have hm : operator_token k ∈ in_order (Node.var c) := by rw [h]; simp [in_order]
      simp only [in_order, List.mem_singleton] at hm
      exact var_token_ne_operator_token (node_invariant_binary.mp hi2).1 hm.symm
  | binary k l r ihl ihr =>
    intro t2 hi1 hi2 hc1 hc2 h
    cases t2 with
    | null => simp [node_invariant] at hi2
    | var c2 =>
      exfalso
      have hm : operator_token k ∈ in_order (Node.var c2) := by rw [← h]; simp [in_order]
      simp only [in_order, List.mem_singleton] at hm
      exact var_token_ne_operator_token (node_invariant_binary.mp hi1).1 hm.symm
    | binary k2 l2 r2 =>
      obtain ⟨hl, hk, hr⟩ := in_order_split hi1 hi2 hc1 hc2 h
      have hi1' := node_invariant_binary.mp hi1
      have hi2' := node_invariant_binary.mp hi2
      have hc1' := precedence_correct_binary.mp hc1
      have hc2' := precedence_correct_binary.mp hc2
      rw [ihl l2 hi1'.2.1 hi2'.2.1 hc1'.2.2.1 hc2'.2.2.1 hl,
        ihr r2 hi1'.2.2 hi2'.2.2 hc1'.2.2.2 hc2'.2.2.2 hr, hk]

/-! ## The reference tree -/

theorem close_sum_ok {sum : Option (Node × NodeKind)} {term : Node} (hs : SumOK sum)
    (ht : TermOK term) :
    node_invariant (close_sum sum term) = true ∧ precedence_correct (close_sum sum term) = true ∧
      2 ≤ root_precedence (close_sum sum term) ∧
      in_order (close_sum sum term) = sum_tokens sum ++ in_order term := by
  obtain ⟨ht1, ht2, ht3⟩ := ht
  match sum, hs with
  | none, _ => exact ⟨ht1, ht2, by show 2 ≤ root_precedence term; omega, rfl⟩
  | some (s, k), ⟨hs1, hs2, hs3, hk⟩ =>
    have hp : node_precedence k = 2 := by rcases hk with rfl | rfl <;> rfl
    refine ⟨?_, ?_, ?_, ?_⟩
    · refine node_invariant_binary.mpr ⟨?_, hs1, ht1⟩
      rcases hk with rfl | rfl <;> rfl
    · refine precedence_correct_binary.mpr ⟨Or.inl ?_, Or.inl ?_, hs2, ht2⟩ <;> omega
    · simp only [close_sum, root_precedence_binary]; omega
    · simp [close_sum, in_order, sum_tokens]

theorem additive_to_binary_op {t : Token} (h : is_binary_operator t = true)
    (ha : t.kind ≠ .LessThan ∧ t.kind ≠ .GreaterThan)
    (hm : ¬ (t.kind = .Asterisk ∨ t.kind = .Slash)) :
    to_binary_op t = .Add ∨ to_binary_op t = .Sub := by
  obtain ⟨k, c⟩ := t
  cases k <;> simp [is_binary_operator] at h <;> simp at hm <;> simp at ha <;>
    simp [to_binary_op]

theorem reference_tree_loop_ok (ops : List (Token × Char)) :
    ∀ (sum : Option (Node × NodeKind)) (term : Node), OpsOK ops → OpsArith ops → SumOK sum →
      TermOK term →
      node_invariant (reference_tree_loop sum term (flat ops)) = true ∧
      precedence_correct (reference_tree_loop sum term (flat ops)) = true ∧
      in_order (reference_tree_loop sum term (flat ops)) =
        sum_tokens sum ++ in_order term ++ flat ops := by
  induction ops with
  | nil =>
    intro sum term _ _ hs ht
    have := close_sum_ok hs ht
    simp only [flat, reference_tree_loop, List.append_nil]
    exact ⟨this.1, this.2.1, this.2.2.2⟩
  | cons x rest ih =>
    intro sum term hops ha hs ht
    have hx := hops.head
    have hax := ha x (List.mem_cons_self _ _)
    simp only [flat, reference_tree_loop, var_token]
    by_cases hm : x.1.kind = .Asterisk ∨ x.1.kind = .Slash
    · rw [if_pos hm]
      have hk : to_binary_op x.1 = .Mul ∨ to_binary_op x.1 = .Div := by
        rcases hm with h | h <;> simp [to_binary_op, h]
      have hp : node_precedence (to_binary_op x.1) = 3 := by
        rcases hk with h | h <;> rw [h] <;> rfl
      have ht' : TermOK (.binary (to_binary_op x.1) term (.var x.2)) := by
        refine ⟨node_invariant_binary.mpr ⟨is_operator_kind_to_binary_op hx.1, ht.1, rfl⟩,
          precedence_correct_binary.mpr ⟨Or.inr rfl, Or.inl ?_, ht.2.1, rfl⟩, ?_⟩
        · have := ht.2.2; omega
        · rw [root_precedence_binary]; omega
      obtain ⟨h1, h2, h3⟩ := ih sum _ hops.tail ha.rest_arith hs ht'
      refine ⟨h1, h2, ?_⟩
      rw [h3]
      simp [in_order, operator_token_to_binary_op hx, var_token]
    · rw [if_neg hm]
      have hk := additive_to_binary_op hx.1 hax hm
      have hc := close_sum_ok hs ht
      have hs' : SumOK (some (close_sum sum term, to_binary_op x.1)) :=
        ⟨hc.1, hc.2.1, hc.2.2.1, hk⟩
      have ht' : TermOK (.var x.2) := ⟨rfl, rfl, by simp [root_precedence, interior_precedence]⟩
      obtain ⟨h1, h2, h3⟩ := ih _ _ hops.tail ha.rest_arith hs' ht'
      refine ⟨h1, h2, ?_⟩
      rw [h3]
      simp [sum_tokens, hc.2.2.2, in_order, operator_token_to_binary_op hx, var_token]

theorem reference_tree_ok (v : Char) (ops : List (Token × Char)) (hops : OpsOK ops)
    (ha : OpsArith ops) :
    node_invariant (reference_tree (var_token v :: flat ops)) = true ∧
    precedence_correct (reference_tree (var_token v :: flat ops)) = true ∧
    in_order (reference_tree (var_token v :: flat ops)) = var_token v :: flat ops := by
  have := reference_tree_loop_ok ops none (.var v) hops ha trivial
    ⟨rfl, rfl, by simp [root_precedence, interior_precedence]⟩
  simpa [reference_tree, var_token, sum_tokens, in_order] using this

/-! ## Well-formed token sequences -/

theorem well_formed_decompose : ∀ (n : Nat) (ts : List Token), ts.length ≤ n →
    (∀ t ∈ ts, is_binary_operator t = true → t.variable_name = NUL) →
    well_formed ts = true → ∃ v ops, ts = var_token v :: flat ops ∧ OpsOK ops := by
  intro n
  induction n with
  | zero =>
    intro ts hlen _ hw
    have : ts = [] := List.length_eq_zero.mp (by omega)
    subst this
    simp [well_formed] at hw
  | succ n ih =>
    intro ts hlen hcan hw
    match ts, hw with
    | [v], hw =>
      simp only [well_formed, decide_eq_true_eq] at hw
      refine ⟨v.variable_name, [], ?_, fun _ h => by cases h⟩
      obtain ⟨k, c⟩ := v
      simp only at hw
      subst hw
      rfl
    | v :: op :: rest, hw =>
      simp only [well_formed, Bool.and_eq_true, decide_eq_true_eq] at hw
      obtain ⟨⟨hv, hop⟩, hrest⟩ := hw
      obtain ⟨w, ops, hts, hops⟩ := ih rest (by simp at hlen; omega)
        (fun t ht => hcan t (by simp [ht])) hrest
      refine ⟨v.variable_name, (op, w) :: ops, ?_, ?_⟩
      · obtain ⟨k, c⟩ := v
        simp only at hv
        subst hv
        simp [flat, hts, var_token]
      · intro y hy
        rcases List.mem_cons.mp hy with rfl | hy
        · exact ⟨hop, hcan _ (by simp) hop⟩
        · exact hops y hy

theorem arithmetic_only_ops {v : Char} {ops : List (Token × Char)}
    (h : arithmetic_only (var_token v :: flat ops) = true) : OpsArith ops := by
  induction ops generalizing v with
  | nil => intro x hx; cases hx
  | cons x rest ih =>
    simp only [arithmetic_only, flat, List.all_cons, Bool.and_eq_true, decide_eq_true_eq] at h
    intro y hy
    rcases List.mem_cons.mp hy with rfl | hy
    · exact h.2.1
    · refine ih (v := x.2) ?_ y hy
      simp only [arithmetic_only, List.all_cons, Bool.and_eq_true, decide_eq_true_eq]
      exact ⟨h.2.2.1, h.2.2.2⟩

theorem flat_length (ops : List (Token × Char)) : (flat ops).length = 2 * ops.length := by
  induction ops with
  | nil => rfl
  | cons x rest ih => simp [flat, ih]; omega

theorem last_is_variable (ops : List (Token × Char)) : ∀ v : Char,
    ∃ c, (var_token v :: flat ops).drop ((var_token v :: flat ops).length - 1) = [var_token c] := by
  induction ops with
  | nil => intro v; exact ⟨v, rfl⟩
  | cons x rest ih =>
    intro v
    obtain ⟨c, hc⟩ := ih x.2
    refine ⟨c, ?_⟩
    simp only [flat, List.length_cons] at hc ⊢
    simpa using hc

/-! ## The tokenizer -/

theorem mem_LETTER (c : Char) : c ∈ LETTER ↔ 'a' ≤ c ∧ c ≤ 'z' := by
  constructor
  · intro h
    simp only [LETTER, List.mem_cons, List.mem_singleton, List.not_mem_nil, or_false] at h
    rcases h with h | h | h | h | h | h | h | h | h | h | h | h | h | h | h | h | h | h | h | h |
      h | h | h | h | h | h <;> subst h <;> decide
  · rintro ⟨h1, h2⟩
    have h1' : 97 ≤ c.toNat := h1
    have h2' : c.toNat ≤ 122 := h2
    have hc : c = Char.ofNat c.toNat := (Char.ofNat_toNat c).symm
    generalize c.toNat = n at h1' h2' hc
    subst hc
    interval_cases n <;> decide

theorem tokenize_loop_eq (source : List Char) : ∀ tokens : List Token,
    tokenize_loop source tokens =
      tokens ++ (source.takeWhile (fun c => decide (c ≠ NUL))).filterMap token_of_char := by
  induction source with
  | nil => intro tokens; simp [tokenize_loop]
  | cons ch source ih =>
    intro tokens
    unfold tokenize_loop
    by_cases h1 : ch = '+'
    · subst h1; rw [if_pos rfl, ih]; simp [List.takeWhile, token_of_char, NUL]
    by_cases h2 : ch = '-'
    · subst h2; rw [if_neg (by decide), if_pos rfl, ih]; simp [List.takeWhile, token_of_char, NUL]
    by_cases h3 : ch = '/'
    · subst h3
      rw [if_neg (by decide), if_neg (by decide), if_pos rfl, ih]
      simp [List.takeWhile, token_of_char, NUL]
    by_cases h4 : ch = '*'
    · subst h4
      rw [if_neg (by decide), if_neg (by decide), if_neg (by decide), if_pos rfl, ih]
      simp [List.takeWhile, token_of_char, NUL]
    by_cases h5 : ch = '<'
    · subst h5
      rw [if_neg (by decide), if_neg (by decide), if_neg (by decide), if_neg (by decide),
        if_pos rfl, ih]
      simp [List.takeWhile, token_of_char, NUL]
    by_cases h6 : ch = '>'
    · subst h6
      rw [if_neg (by decide), if_neg (by decide), if_neg (by decide), if_neg (by decide),
        if_neg (by decide), if_pos rfl, ih]
      simp [List.takeWhile, token_of_char, NUL]
    rw [if_neg h1, if_neg h2, if_neg h3, if_neg h4, if_neg h5, if_neg h6]
    by_cases h7 : ch ∈ LETTER
    · have hn : ch ≠ NUL := by
        rintro rfl
        revert h7
        decide
      rw [if_pos h7, ih]
      simp [List.takeWhile, token_of_char, h1, h2, h3, h4, h5, h6, (mem_LETTER ch).mp h7, hn]
    · rw [if_neg h7]
      by_cases h8 : ch = NUL
      · rw [if_pos h8]
        simp [List.takeWhile, h8]
      · rw [if_neg h8, ih]
        have : ¬ ('a' ≤ ch ∧ ch ≤ 'z') := fun h => h7 ((mem_LETTER ch).mpr h)
        simp [List.takeWhile, token_of_char, h1, h2, h3, h4, h5, h6, this, h8]

theorem tokenize_eq_spec (source : String) : tokenize source = tokenize_spec source := by
  simp [tokenize, tokenize_spec, tokenize_loop_eq]

theorem token_of_char_operator {c : Char} {t : Token} (h : token_of_char c = some t) :
    t.kind ≠ .EOF ∧ (is_binary_operator t = true → t.variable_name = NUL) := by
  unfold token_of_char at h
  repeat' split at h
  all_goals (cases h <;> simp [is_binary_operator])

theorem tokenize_operator (source : String) :
    ∀ t ∈ tokenize source, t.kind ≠ .EOF ∧ (is_binary_operator t = true → t.variable_name = NUL) := by
  intro t ht
  rw [tokenize_eq_spec, tokenize_spec, List.mem_filterMap] at ht
  obtain ⟨c, _, hc⟩ := ht
  exact token_of_char_operator hc

/-! ## The four parsers on a well-formed source text -/

theorem tokens_decompose (source : String) (hwf : well_formed (tokenize source) = true) :
    ∃ v ops, tokenize source = var_token v :: flat ops ∧ OpsOK ops :=
  well_formed_decompose _ _ (le_refl _) (fun t ht => (tokenize_operator source t ht).2) hwf

theorem tokens_length {T : List Token} {v : Char} {ops : List (Token × Char)}
    (h : T = var_token v :: flat ops) : T.length = 2 * ops.length + 1 := by
  rw [h, List.length_cons, flat_length]

theorem parse_naive_eq {source : String} {v : Char} {ops : List (Token × Char)}
    (h : tokenize source = var_token v :: flat ops) (hops : OpsOK ops) {fuel : Nat}
    (hf : ops.length < fuel) : parse_naive fuel source = .ok (naive_tree v ops) := by
  simp only [parse_naive, bind, Except.bind, pure, Except.pure,
    naive_run ops v (tokenize source) 0 fuel (by simpa using h) hops hf]

theorem parse_tree_rewriting_eq {source : String} {v : Char} {ops : List (Token × Char)}
    (h : tokenize source = var_token v :: flat ops) (hops : OpsOK ops) {fuel : Nat}
    (hf : ops.length < fuel) : parse_tree_rewriting fuel source = .ok (rewriting_tree v ops) := by
  simp only [parse_tree_rewriting, bind, Except.bind, pure, Except.pure,
    rewriting_run ops v (tokenize source) 0 fuel (by simpa using h) hops hf]

theorem parse_tree_rewriting_complete_eq {source : String} {v : Char}
    {ops : List (Token × Char)} (h : tokenize source = var_token v :: flat ops)
    (hops : OpsOK ops) {fuel : Nat} (hf : ops.length < fuel) :
    parse_tree_rewriting_complete fuel source = .ok (complete_tree v ops) := by
  simp only [parse_tree_rewriting_complete, bind, Except.bind, pure, Except.pure,
    complete_run ops v (tokenize source) 0 fuel (by simpa using h) hops hf]

theorem parse_pratt_eq {source : String} {v : Char} {ops : List (Token × Char)}
    (h : tokenize source = var_token v :: flat ops) (hops : OpsOK ops)
    (hT : (tokenize source).length < SIZE_MODULUS) {fuel : Nat}
    (hf : 3 * ops.length + 3 ≤ fuel) : parse_pratt fuel source = .ok (pratt_tree v ops) := by
  obtain ⟨f, rfl⟩ : ∃ f, fuel = f + 1 := ⟨fuel - 1, by omega⟩
  have hlast : ∃ c, (tokenize source).drop ((tokenize source).length - 1) = [var_token c] := by
    rw [h]; exact last_is_variable ops v
  have hd : (tokenize source).drop 0 = var_token v :: flat ops := by simpa using h
  have hview : View (tokenize source) (0 + 1) ops :=
    Or.inl ⟨(get_next_token_cons hd).2, by have := drop_cons_lt hd; omega⟩
  obtain ⟨o, hrun, _⟩ := pratt_loop_run (tokenize source) hT hlast ops.length ops (.var v) (-1)
    (0 + 1) f (le_refl _) (by omega) hview hops (le_refl _)
  simp only [parse_pratt, bind, Except.bind, pure, Except.pure, parse_expression_succ,
    parse_leaf_var hd, hrun, pratt_tree]

theorem right_nested_eq (ops : List (Token × Char)) : ∀ v,
    right_nested (var_token v :: flat ops) = naive_tree v ops := by
  induction ops with
  | nil => intro v; rfl
  | cons x rest ih =>
    intro v
    simp only [flat, right_nested, naive_tree, ih x.2]
    rfl

theorem naive_tree_left_leaves (ops : List (Token × Char)) : ∀ v,
    left_children_are_leaves (naive_tree v ops) = true := by
  induction ops with
  | nil => intro v; rfl
  | cons x rest ih => intro v; simp [naive_tree, left_children_are_leaves, ih]

theorem naive_tree_invariant (ops : List (Token × Char)) : ∀ v, OpsOK ops →
    node_invariant (naive_tree v ops) = true := by
  induction ops with
  | nil => intro v _; rfl
  | cons x rest ih =>
    intro v h
    exact node_invariant_binary.mpr ⟨is_operator_kind_to_binary_op h.head.1, rfl, ih x.2 h.tail⟩

theorem arithmetic_root_ge {t : Node} (h : arithmetic_tree t = true) : 2 ≤ root_precedence t := by
  cases t with
  | null => simp [root_precedence, interior_precedence]
  | var c => simp [root_precedence, interior_precedence]
  | binary k l r =>
    have := (arithmetic_tree_binary.mp h).1
    cases k <;> simp [is_arithmetic_kind] at this <;>
      simp [root_precedence, interior_precedence, node_precedence, operator_token,
        PRECEDENCE_TABLE]

theorem complete_tree_precedence_correct (v : Char) (ops : List (Token × Char))
    (hops : OpsOK ops) (ha : OpsArith ops.tail) :
    precedence_correct (complete_tree v ops) = true := by
  cases ops with
  | nil => rfl
  | cons x rest =>
    obtain ⟨h1, h2⟩ := complete_tree_arithmetic rest x.2 hops.tail ha
    by_cases hx : is_arithmetic_kind (to_binary_op x.1) = true
    · exact (complete_step_arithmetic hx h1 h2).2
    · have hk : ¬ (to_binary_op x.1 = .Mul ∨ to_binary_op x.1 = .Div) ∧
          ¬ (to_binary_op x.1 = .Add ∨ to_binary_op x.1 = .Sub) := by
        simp only [is_arithmetic_kind, decide_eq_true_eq] at hx
        tauto
      have hp : node_precedence (to_binary_op x.1) ≤ 1 := by
        have hop := is_operator_kind_to_binary_op hops.head.1
        generalize to_binary_op x.1 = k at hx hop
        cases k <;> simp [is_arithmetic_kind] at hx <;> simp [is_operator_kind] at hop <;>
          simp [node_precedence, operator_token, PRECEDENCE_TABLE]
      simp only [complete_tree, complete_step, if_neg hk.1, if_neg hk.2]
      refine precedence_correct_binary.mpr ⟨Or.inl ?_, Or.inr rfl, rfl, h2⟩
      have := arithmetic_root_ge h1
      omega

theorem comparison_only_first_ops {v : Char} {ops : List (Token × Char)}
    (h : comparison_only_first (var_token v :: flat ops) = true) : OpsArith ops.tail := by
  cases ops with
  | nil => intro x hx; cases hx
  | cons x rest => exact arithmetic_only_ops (v := x.2) (by simpa [comparison_only_first, flat] using h)

theorem complete_eq_pratt (v : Char) (ops : List (Token × Char)) (hops : OpsOK ops)
    (ha : OpsArith ops.tail) : complete_tree v ops = pratt_tree v ops :=
  precedence_correct_unique _ _ (complete_tree_invariant ops v hops)
    (pratt_tree_invariant v ops hops) (complete_tree_precedence_correct v ops hops ha)
    (pratt_tree_precedence_correct v ops hops)
    ((in_order_complete_tree ops v hops).trans (in_order_pratt_tree v ops hops).symm)

theorem reference_eq_pratt (v : Char) (ops : List (Token × Char)) (hops : OpsOK ops)
    (ha : OpsArith ops) : reference_tree (var_token v :: flat ops) = pratt_tree v ops := by
  obtain ⟨h1, h2, h3⟩ := reference_tree_ok v ops hops ha
  exact precedence_correct_unique _ _ h1 (pratt_tree_invariant v ops hops) h2
    (pratt_tree_precedence_correct v ops hops) (h3.trans (in_order_pratt_tree v ops hops).symm)

theorem OpsArith.of_tail_of_cons {ops : List (Token × Char)} (h : OpsArith ops) :
    OpsArith ops.tail := fun y hy => h y (List.mem_of_mem_tail hy)

/-! # The claims -/

/-- C1, counterexample: on the well-formed input `a * b < c` the tree of
`parse_tree_rewriting_complete` prints `( * a ( < b c ) )` and the tree of
`parse_pratt` prints `( < ( * a b ) c )`. -/
theorem complete_differs_from_pratt_on_comparison :
    well_formed (tokenize "a * b < c") = true ∧
    parse_tree_rewriting_complete 15 "a * b < c" =
      .ok (.binary .Mul (.var 'a') (.binary .CompareLessThan (.var 'b') (.var 'c'))) ∧
    parse_pratt 15 "a * b < c" =
      .ok (.binary .CompareLessThan (.binary .Mul (.var 'a') (.var 'b')) (.var 'c')) ∧
    print_node2 (.binary .Mul (.var 'a') (.binary .CompareLessThan (.var 'b') (.var 'c'))) =
      "( * a ( < b c ) )" ∧
    print_node2 (.binary .CompareLessThan (.binary .Mul (.var 'a') (.var 'b')) (.var 'c')) =
      "( < ( * a b ) c )" ∧
    print_node2 (.binary .Mul (.var 'a') (.binary .CompareLessThan (.var 'b') (.var 'c'))) ≠
      print_node2 (.binary .CompareLessThan (.binary .Mul (.var 'a') (.var 'b')) (.var 'c')) := by
  refine ⟨by rfl, by rfl, by rfl, by rfl, by rfl, by decide⟩

/-- C1, amended: for every well-formed input in which no operator after the
first one is a comparison, `parse_tree_rewriting_complete` and `parse_pratt`
both return a tree, and the two trees print identically. -/
theorem complete_prints_as_pratt (source : String) (fuel : Nat)
    (hwf : well_formed (tokenize source) = true)
    (hcmp : comparison_only_first (tokenize source) = true)
    (hsize : (tokenize source).length < SIZE_MODULUS)
    (hfuel : 3 * (tokenize source).length ≤ fuel) :
    ∃ t1 t2, parse_tree_rewriting_complete fuel source = .ok t1 ∧
      parse_pratt fuel source = .ok t2 ∧ print_node2 t1 = print_node2 t2 := by
  obtain ⟨v, ops, h, hops⟩ := tokens_decompose source hwf
  have hlen := tokens_length h
  rw [h] at hcmp
  refine ⟨complete_tree v ops, pratt_tree v ops,
    parse_tree_rewriting_complete_eq h hops (by omega),
    parse_pratt_eq h hops hsize (by omega), ?_⟩
  rw [complete_eq_pratt v ops hops (comparison_only_first_ops hcmp)]

/-- C1, amended, at the input `a < b * c + d`. -/
theorem complete_prints_as_pratt_witness :
    well_formed (tokenize "a < b * c + d") = true ∧
    comparison_only_first (tokenize "a < b * c + d") = true ∧
    ∃ t1 t2, parse_tree_rewriting_complete 21 "a < b * c + d" = .ok t1 ∧
      parse_pratt 21 "a < b * c + d" = .ok t2 ∧ print_node2 t1 = print_node2 t2 :=
  ⟨by rfl, by rfl,
    complete_prints_as_pratt "a < b * c + d" 21 (by rfl) (by rfl) (by decide) (by decide)⟩

/-- C2: for every well-formed input that uses only `+ - * /`,
`parse_tree_rewriting_complete` and `parse_pratt` return the same tree, the
left-associative, multiplication-before-addition tree of the token
sequence. -/
theorem complete_and_pratt_return_reference_tree (source : String) (fuel : Nat)
    (hwf : well_formed (tokenize source) = true)
    (harith : arithmetic_only (tokenize source) = true)
    (hsize : (tokenize source).length < SIZE_MODULUS)
    (hfuel : 3 * (tokenize source).length ≤ fuel) :
    parse_tree_rewriting_complete fuel source = .ok (reference_tree (tokenize source)) ∧
      parse_pratt fuel source = .ok (reference_tree (tokenize source)) := by
  obtain ⟨v, ops, h, hops⟩ := tokens_decompose source hwf
  have hlen := tokens_length h
  have ha : OpsArith ops := arithmetic_only_ops (v := v) (by rw [← h]; exact harith)
  rw [parse_tree_rewriting_complete_eq h hops (by omega), parse_pratt_eq h hops hsize (by omega),
    h, reference_eq_pratt v ops hops ha, complete_eq_pratt v ops hops ha.of_tail_of_cons]
  exact ⟨rfl, rfl⟩

/-- C2 at the inputs `a + b * c + d` and `a * b * c * d`, with the text the
reference tree prints. -/
theorem complete_and_pratt_return_reference_tree_witness :
    (well_formed (tokenize "a + b * c + d") = true ∧
      arithmetic_only (tokenize "a + b * c + d") = true ∧
      (parse_tree_rewriting_complete 21 "a + b * c + d" =
          .ok (reference_tree (tokenize "a + b * c + d")) ∧
        parse_pratt 21 "a + b * c + d" = .ok (reference_tree (tokenize "a + b * c + d"))) ∧
      print_node2 (reference_tree (tokenize "a + b * c + d")) = "( + ( + a ( * b c ) ) d )") ∧
    (well_formed (tokenize "a * b * c * d") = true ∧
      arithmetic_only (tokenize "a * b * c * d") = true ∧
      (parse_tree_rewriting_complete 21 "a * b * c * d" =
          .ok (reference_tree (tokenize "a * b * c * d")) ∧
        parse_pratt 21 "a * b * c * d" = .ok (reference_tree (tokenize "a * b * c * d"))) ∧
      print_node2 (reference_tree (tokenize "a * b * c * d")) = "( * ( * ( * a b ) c ) d )") :=
  ⟨⟨by rfl, by rfl,
      complete_and_pratt_return_reference_tree "a + b * c + d" 21 (by rfl) (by rfl) (by decide)
        (by decide), by rfl⟩,
    ⟨by rfl, by rfl,
      complete_and_pratt_return_reference_tree "a * b * c * d" 21 (by rfl) (by rfl) (by decide)
        (by decide), by rfl⟩⟩

/-- C3: for every well-formed input over the six operators the tree
`parse_pratt` returns is precedence-correct for the table `<` `>` at 1,
`+` `-` at 2, `*` `/` at 3: at every interior node an interior right child has
strictly higher precedence and an interior left child has precedence greater
than or equal to the node's. -/
theorem pratt_returns_precedence_correct_tree (source : String) (fuel : Nat)
    (hwf : well_formed (tokenize source) = true)
    (hsize : (tokenize source).length < SIZE_MODULUS)
    (hfuel : 3 * (tokenize source).length ≤ fuel) :
    (∃ tree, parse_pratt fuel source = .ok tree ∧ precedence_correct tree = true) ∧
      node_precedence .CompareLessThan = 1 ∧ node_precedence .CompareGreaterThan = 1 ∧
      node_precedence .Add = 2 ∧ node_precedence .Sub = 2 ∧
      node_precedence .Mul = 3 ∧ node_precedence .Div = 3 := by
  obtain ⟨v, ops, h, hops⟩ := tokens_decompose source hwf
  have hlen := tokens_length h
  exact ⟨⟨pratt_tree v ops, parse_pratt_eq h hops hsize (by omega),
    pratt_tree_precedence_correct v ops hops⟩, rfl, rfl, rfl, rfl, rfl, rfl⟩

/-- C3 at the input `a < b + c * d - e > f`. -/
theorem pratt_returns_precedence_correct_tree_witness :
    well_formed (tokenize "a < b + c * d - e > f") = true ∧
    ((∃ tree, parse_pratt 33 "a < b + c * d - e > f" = .ok tree ∧
        precedence_correct tree = true) ∧
      node_precedence .CompareLessThan = 1 ∧ node_precedence .CompareGreaterThan = 1 ∧
      node_precedence .Add = 2 ∧ node_precedence .Sub = 2 ∧
      node_precedence .Mul = 3 ∧ node_precedence .Div = 3) :=
  ⟨by rfl,
    pratt_returns_precedence_correct_tree "a < b + c * d - e > f" 33 (by rfl) (by decide)
      (by decide)⟩

/-- C4: for every well-formed input `parse_naive` returns the fully
right-nested chain, in which every interior node has a leaf as its left child;
on `a * b + c + d` it prints `( * a ( + b ( + c d ) ) )`, and the tree
`parse_pratt` returns for that input prints differently. -/
theorem naive_returns_right_nested_chain :
    (∀ (source : String) (fuel : Nat), well_formed (tokenize source) = true →
      (tokenize source).length ≤ fuel →
      parse_naive fuel source = .ok (right_nested (tokenize source)) ∧
        left_children_are_leaves (right_nested (tokenize source)) = true) ∧
    (∀ fuel, 21 ≤ fuel →
      parse_naive fuel "a * b + c + d" =
        .ok (.binary .Mul (.var 'a')
          (.binary .Add (.var 'b') (.binary .Add (.var 'c') (.var 'd')))) ∧
      parse_pratt fuel "a * b + c + d" =
        .ok (.binary .Add (.binary .Add (.binary .Mul (.var 'a') (.var 'b')) (.var 'c'))
          (.var 'd'))) ∧
    print_node2 (.binary .Mul (.var 'a')
        (.binary .Add (.var 'b') (.binary .Add (.var 'c') (.var 'd')))) =
      "( * a ( + b ( + c d ) ) )" ∧
    print_node2 (.binary .Mul (.var 'a')
        (.binary .Add (.var 'b') (.binary .Add (.var 'c') (.var 'd')))) ≠
      print_node2 (.binary .Add (.binary .Add (.binary .Mul (.var 'a') (.var 'b')) (.var 'c'))
        (.var 'd')) := by
  refine ⟨?_, ?_, by rfl, by decide⟩
  · intro source fuel hwf hfuel
    obtain ⟨v, ops, h, hops⟩ := tokens_decompose source hwf
    have hlen := tokens_length h
    rw [parse_naive_eq h hops (by omega), h, right_nested_eq]
    exact ⟨rfl, naive_tree_left_leaves ops v⟩
  · intro fuel hfuel
    have h : tokenize "a * b + c + d" = var_token 'a' ::
        flat [(⟨.Asterisk, NUL⟩, 'b'), (⟨.Plus, NUL⟩, 'c'), (⟨.Plus, NUL⟩, 'd')] := by rfl
    have hops : OpsOK [(⟨.Asterisk, NUL⟩, 'b'), (⟨.Plus, NUL⟩, 'c'), (⟨.Plus, NUL⟩, 'd')] := by
      intro x hx
      simp only [List.mem_cons, List.mem_singleton, List.not_mem_nil, or_false] at hx
      rcases hx with rfl | rfl | rfl <;> exact ⟨rfl, rfl⟩
    rw [parse_naive_eq h hops (by simp; omega),
      parse_pratt_eq h hops (by decide) (by simp; omega)]
    exact ⟨by rfl, by rfl⟩

/-- C4 at the input `a + b * c`. -/
theorem naive_returns_right_nested_chain_witness :
    well_formed (tokenize "a + b * c") = true ∧
    parse_naive 5 "a + b * c" = .ok (right_nested (tokenize "a + b * c")) ∧
    left_children_are_leaves (right_nested (tokenize "a + b * c")) = true :=
  ⟨by rfl, naive_returns_right_nested_chain.1 "a + b * c" 5 (by rfl) (by decide)⟩

/-- C5: for every well-formed input each of the four algorithms returns a
tree whose in-order traversal is the input token sequence. -/
theorem in_order_reads_back_tokens (source : String) (fuel : Nat)
    (hwf : well_formed (tokenize source) = true)
    (hsize : (tokenize source).length < SIZE_MODULUS)
    (hfuel : 3 * (tokenize source).length ≤ fuel) :
    ∃ t1 t2 t3 t4, parse_naive fuel source = .ok t1 ∧ parse_tree_rewriting fuel source = .ok t2 ∧
      parse_tree_rewriting_complete fuel source = .ok t3 ∧ parse_pratt fuel source = .ok t4 ∧
      in_order t1 = tokenize source ∧ in_order t2 = tokenize source ∧
      in_order t3 = tokenize source ∧ in_order t4 = tokenize source := by
  obtain ⟨v, ops, h, hops⟩ := tokens_decompose source hwf
  have hlen := tokens_length h
  refine ⟨naive_tree v ops, rewriting_tree v ops, complete_tree v ops, pratt_tree v ops,
    parse_naive_eq h hops (by omega), parse_tree_rewriting_eq h hops (by omega),
    parse_tree_rewriting_complete_eq h hops (by omega), parse_pratt_eq h hops hsize (by omega),
    ?_, ?_, ?_, ?_⟩ <;> rw [h]
  · exact in_order_naive_tree ops v hops
  · exact in_order_rewriting_tree ops v hops
  · exact in_order_complete_tree ops v hops
  · exact in_order_pratt_tree v ops hops

/-- C5 at the input `a * b + c < d / e`. -/
theorem in_order_reads_back_tokens_witness :
    well_formed (tokenize "a * b + c < d / e") = true ∧
    ∃ t1 t2 t3 t4, parse_naive 27 "a * b + c < d / e" = .ok t1 ∧
      parse_tree_rewriting 27 "a * b + c < d / e" = .ok t2 ∧
      parse_tree_rewriting_complete 27 "a * b + c < d / e" = .ok t3 ∧
      parse_pratt 27 "a * b + c < d / e" = .ok t4 ∧
      in_order t1 = tokenize "a * b + c < d / e" ∧ in_order t2 = tokenize "a * b + c < d / e" ∧
      in_order t3 = tokenize "a * b + c < d / e" ∧ in_order t4 = tokenize "a * b + c < d / e" :=
  ⟨by rfl, in_order_reads_back_tokens "a * b + c < d / e" 27 (by rfl) (by decide) (by decide)⟩

theorem trailing_operator_step (fuel : Nat) (left : Node) :
    parse_increasing_precedence fuel ⟨[⟨.Variable, 'a'⟩, ⟨.Plus, NUL⟩], 1⟩ left (-1) =
        .error .out_of_fuel ∨
      parse_increasing_precedence fuel ⟨[⟨.Variable, 'a'⟩, ⟨.Plus, NUL⟩], 1⟩ left (-1) =
        .ok (.binary .Add left .null, ⟨[⟨.Variable, 'a'⟩, ⟨.Plus, NUL⟩], 1⟩) := by
  rcases fuel with _ | _ | _ | _ | f
  · exact Or.inl rfl
  · exact Or.inl rfl
  · exact Or.inl rfl
  · exact Or.inl rfl
  · exact Or.inr rfl

theorem trailing_operator_loop (fuel : Nat) : ∀ left : Node,
    parse_expression_loop fuel ⟨[⟨.Variable, 'a'⟩, ⟨.Plus, NUL⟩], 1⟩ left (-1) =
      .error .out_of_fuel := by
  induction fuel with
  | zero => intro left; rfl
  | succ f ih =>
    intro left
    rw [parse_expression_loop_succ]
    rcases trailing_operator_step f left with h | h
    · rw [h]; rfl
    · rw [h]
      simp only [bind, Except.bind, if_neg (binary_ne_left _ _ _)]
      exact ih _

/-- C6, the failing input: on `a +` the loop of `parse_expression` never ends.
The end of input after `+` is pushed back although reading it did not advance
the cursor, so the cursor returns to `+` and the loop reads it again. -/
theorem pratt_does_not_terminate_on_trailing_operator (fuel : Nat) :
    parse_pratt fuel "a +" = .error .out_of_fuel := by
  have h : tokenize "a +" = [⟨.Variable, 'a'⟩, ⟨.Plus, NUL⟩] := by rfl
  cases fuel with
  | zero => rfl
  | succ f =>
    have hleaf : parse_leaf ⟨[⟨.Variable, 'a'⟩, ⟨.Plus, NUL⟩], 0⟩ =
        .ok (.var 'a', ⟨[⟨.Variable, 'a'⟩, ⟨.Plus, NUL⟩], 1⟩) := by rfl
    simp only [parse_pratt, h, parse_expression_succ, hleaf, bind, Except.bind,
      trailing_operator_loop]

/-- C7, the failing input: on `a *` both rewriting parsers read the kind of
the absent right child, where `parse_naive` returns the node with the absent
child. -/
theorem rewriting_faults_on_missing_operand (fuel : Nat) (hfuel : 2 ≤ fuel) :
    parse_tree_rewriting fuel "a *" = .error .fault ∧
      parse_tree_rewriting_complete fuel "a *" = .error .fault ∧
      parse_tree_rewriting_complete fuel "a +" = .error .fault ∧
      parse_naive fuel "a *" = .ok (.binary .Mul (.var 'a') .null) := by
  obtain ⟨f, rfl⟩ : ∃ f, fuel = f + 2 := ⟨fuel - 2, by omega⟩
  exact ⟨rfl, rfl, rfl, rfl⟩

/-- C7 with two units of fuel. -/
theorem rewriting_faults_on_missing_operand_witness :
    parse_tree_rewriting 2 "a *" = .error .fault ∧
      parse_tree_rewriting_complete 2 "a *" = .error .fault ∧
      parse_tree_rewriting_complete 2 "a +" = .error .fault ∧
      parse_naive 2 "a *" = .ok (.binary .Mul (.var 'a') .null) :=
  rewriting_faults_on_missing_operand 2 (by decide)

/-- C8, counterexample: the source `++` has no variable, and `parse_naive`
returns a node for it, not an absent tree. -/
theorem naive_returns_node_without_variable :
    (∀ t ∈ tokenize "++", t.kind ≠ .Variable) ∧
    parse_naive 6 "++" = .ok (.binary .Add .null .null) ∧
    parse_naive 6 "++" ≠ .ok .null := by
  refine ⟨by decide, by rfl, ?_⟩
  intro h
  have h2 : parse_naive 6 "++" = .ok (.binary .Add .null .null) := by rfl
  rw [h2] at h
  cases h

/-- C8, amended: for the empty source text and for every source text whose
token sequence is a single token that is no variable, each of the four
algorithms returns an absent tree. -/
theorem no_variable_gives_absent (source : String) (fuel : Nat)
    (hvar : ∀ t ∈ tokenize source, t.kind ≠ .Variable)
    (hone : (tokenize source).length ≤ 1) (hfuel : 3 ≤ fuel) :
    parse_naive fuel source = .ok .null ∧ parse_tree_rewriting fuel source = .ok .null ∧
      parse_tree_rewriting_complete fuel source = .ok .null ∧
      parse_pratt fuel source = .ok .null := by
  obtain ⟨f, rfl⟩ : ∃ f, fuel = f + 3 := ⟨fuel - 3, by omega⟩
  have hcases : tokenize source = [] ∨ ∃ t, tokenize source = [t] := by
    match h : tokenize source with
    | [] => exact Or.inl rfl
    | [t] => exact Or.inr ⟨t, rfl⟩
    | _ :: _ :: _ => rw [h] at hone; simp at hone
  rcases hcases with h | ⟨t, h⟩
  · simp only [parse_naive, parse_tree_rewriting, parse_tree_rewriting_complete, parse_pratt, h]
    exact ⟨rfl, rfl, rfl, rfl⟩
  · have ht := hvar t (by rw [h]; simp)
    have heof := (tokenize_operator source t (by rw [h]; simp)).1
    simp only [parse_naive, parse_tree_rewriting, parse_tree_rewriting_complete, parse_pratt, h]
    obtain ⟨k, c⟩ := t
    cases k <;> first | exact absurd rfl ht | exact absurd rfl heof | exact ⟨rfl, rfl, rfl, rfl⟩

/-- C8, amended, at the input `+`. -/
theorem no_variable_gives_absent_witness :
    (∀ t ∈ tokenize "+", t.kind ≠ .Variable) ∧ (tokenize "+").length ≤ 1 ∧
    (parse_naive 3 "+" = .ok .null ∧ parse_tree_rewriting 3 "+" = .ok .null ∧
      parse_tree_rewriting_complete 3 "+" = .ok .null ∧ parse_pratt 3 "+" = .ok .null) :=
  ⟨by decide, by decide, no_variable_gives_absent "+" 3 (by decide) (by decide) (by decide)⟩

/-- C9: `tokenize` returns the list obtained by mapping each character before
the first NUL to its token, in order, and dropping every other character; the
list holds no end-of-input token and has at most as many tokens as there are
characters. -/
theorem tokenize_meets_description (source : String) :
    tokenize source = tokenize_spec source ∧
      (∀ t ∈ tokenize source, t.kind ≠ .EOF) ∧
      (tokenize source).length ≤ source.length := by
  refine ⟨tokenize_eq_spec source, fun t ht => (tokenize_operator source t ht).1, ?_⟩
  rw [tokenize_eq_spec, tokenize_spec]
  exact (List.length_filterMap_le _ _).trans
    ((List.takeWhile_sublist _).length_le)

/-- C10: on the well-formed input `a + b + c + d` the tree of
`parse_tree_rewriting` prints differently from the trees of
`parse_tree_rewriting_complete` and `parse_pratt`. -/
theorem single_step_diverges :
    ∃ source : String, well_formed (tokenize source) = true ∧
      ∃ t1 t2 t3, (∀ fuel, 3 * (tokenize source).length ≤ fuel →
          parse_tree_rewriting fuel source = .ok t1 ∧
          parse_tree_rewriting_complete fuel source = .ok t2 ∧
          parse_pratt fuel source = .ok t3) ∧
        print_node2 t1 ≠ print_node2 t2 ∧ print_node2 t1 ≠ print_node2 t3 := by
  have h : tokenize "a + b + c + d" = var_token 'a' ::
      flat [(⟨.Plus, NUL⟩, 'b'), (⟨.Plus, NUL⟩, 'c'), (⟨.Plus, NUL⟩, 'd')] := by rfl
  have hops : OpsOK [(⟨.Plus, NUL⟩, 'b'), (⟨.Plus, NUL⟩, 'c'), (⟨.Plus, NUL⟩, 'd')] := by
    intro x hx
    simp only [List.mem_cons, List.mem_singleton, List.not_mem_nil, or_false] at hx
    rcases hx with rfl | rfl | rfl <;> exact ⟨rfl, rfl⟩
  refine ⟨"a + b + c + d", by rfl,
    .binary .Add (.var 'a') (.binary .Add (.var 'b') (.binary .Add (.var 'c') (.var 'd'))),
    .binary .Add (.binary .Add (.binary .Add (.var 'a') (.var 'b')) (.var 'c')) (.var 'd'),
    .binary .Add (.binary .Add (.binary .Add (.var 'a') (.var 'b')) (.var 'c')) (.var 'd'),
    ?_, by decide, by decide⟩
  intro fuel hfuel
  have hlen : (tokenize "a + b + c + d").length = 7 := by rfl
  rw [hlen] at hfuel
  rw [parse_tree_rewriting_eq h hops (by simp; omega),
    parse_tree_rewriting_complete_eq h hops (by simp; omega),
    parse_pratt_eq h hops (by decide) (by simp; omega)]
  exact ⟨by rfl, by rfl, by rfl⟩

/-! # Further claims -/

theorem tokenize_single_letter (c : Char) (hc : 'a' ≤ c ∧ c ≤ 'z') :
    tokenize (String.singleton c) = [var_token c] := by
  have h1 : c ≠ '+' := by rintro rfl; revert hc; decide
  have h2 : c ≠ '-' := by rintro rfl; revert hc; decide
  have h3 : c ≠ '/' := by rintro rfl; revert hc; decide
  have h4 : c ≠ '*' := by rintro rfl; revert hc; decide
  have h5 : c ≠ '<' := by rintro rfl; revert hc; decide
  have h6 : c ≠ '>' := by rintro rfl; revert hc; decide
  have h7 : c ≠ NUL := by rintro rfl; revert hc; decide
  have hl : (String.singleton c).toList = [c] := rfl
  rw [tokenize_eq_spec, tokenize_spec, hl]
  simp [List.takeWhile, h7, token_of_char, h1, h2, h3, h4, h5, h6, hc, var_token]

/-- C11: for every ASCII lowercase letter `c` the text consisting of `c` alone
is parsed by all four algorithms to the one-node tree of the variable `c`. -/
theorem single_letter_parses_to_leaf (c : Char) (fuel : Nat) (hc : 'a' ≤ c ∧ c ≤ 'z')
    (hfuel : 3 ≤ fuel) :
    parse_naive fuel (String.singleton c) = .ok (.var c) ∧
      parse_tree_rewriting fuel (String.singleton c) = .ok (.var c) ∧
      parse_tree_rewriting_complete fuel (String.singleton c) = .ok (.var c) ∧
      parse_pratt fuel (String.singleton c) = .ok (.var c) := by
  have h : tokenize (String.singleton c) = var_token c :: flat [] := tokenize_single_letter c hc
  have hops : OpsOK [] := fun _ hx => by cases hx
  exact ⟨parse_naive_eq h hops (by simp; omega), parse_tree_rewriting_eq h hops (by simp; omega),
    parse_tree_rewriting_complete_eq h hops (by simp; omega),
    parse_pratt_eq h hops (by rw [h]; simp [flat, SIZE_MODULUS]) (by simp; omega)⟩

/-- C11 at the letter `q`. -/
theorem single_letter_parses_to_leaf_witness :
    ('a' ≤ 'q' ∧ 'q' ≤ 'z') ∧
    parse_naive 3 (String.singleton 'q') = .ok (.var 'q') ∧
      parse_tree_rewriting 3 (String.singleton 'q') = .ok (.var 'q') ∧
      parse_tree_rewriting_complete 3 (String.singleton 'q') = .ok (.var 'q') ∧
      parse_pratt 3 (String.singleton 'q') = .ok (.var 'q') :=
  ⟨by decide, single_letter_parses_to_leaf 'q' 3 (by decide) (by decide)⟩

/-- C12: for every well-formed input each of the four algorithms returns a
tree that satisfies the node invariant: every interior node has both children
present (and one of the six operator kinds), every leaf is a variable node. -/
theorem parsers_return_trees_with_node_invariant (source : String) (fuel : Nat)
    (hwf : well_formed (tokenize source) = true)
    (hsize : (tokenize source).length < SIZE_MODULUS)
    (hfuel : 3 * (tokenize source).length ≤ fuel) :
    ∃ t1 t2 t3 t4, parse_naive fuel source = .ok t1 ∧ parse_tree_rewriting fuel source = .ok t2 ∧
      parse_tree_rewriting_complete fuel source = .ok t3 ∧ parse_pratt fuel source = .ok t4 ∧
      node_invariant t1 = true ∧ node_invariant t2 = true ∧
      node_invariant t3 = true ∧ node_invariant t4 = true := by
  obtain ⟨v, ops, h, hops⟩ := tokens_decompose source hwf
  have hlen := tokens_length h
  exact ⟨naive_tree v ops, rewriting_tree v ops, complete_tree v ops, pratt_tree v ops,
    parse_naive_eq h hops (by omega), parse_tree_rewriting_eq h hops (by omega),
    parse_tree_rewriting_complete_eq h hops (by omega), parse_pratt_eq h hops hsize (by omega),
    naive_tree_invariant ops v hops, rewriting_tree_invariant ops v hops,
    complete_tree_invariant ops v hops, pratt_tree_invariant v ops hops⟩

/-- C12 at the input `a / b - c < d * e`. -/
theorem parsers_return_trees_with_node_invariant_witness :
    well_formed (tokenize "a / b - c < d * e") = true ∧
    ∃ t1 t2 t3 t4, parse_naive 27 "a / b - c < d * e" = .ok t1 ∧
      parse_tree_rewriting 27 "a / b - c < d * e" = .ok t2 ∧
      parse_tree_rewriting_complete 27 "a / b - c < d * e" = .ok t3 ∧
      parse_pratt 27 "a / b - c < d * e" = .ok t4 ∧
      node_invariant t1 = true ∧ node_invariant t2 = true ∧
      node_invariant t3 = true ∧ node_invariant t4 = true :=
  ⟨by rfl,
    parsers_return_trees_with_node_invariant "a / b - c < d * e" 27 (by rfl) (by decide)
      (by decide)⟩

/-- C14: `print_node2` renders an absent node as the empty text, a leaf as its
variable character, and an interior node of one of the six operator kinds as
`( OP `, the left child, a space, the right child and ` )`. -/
theorem print_node2_renders (c : Char) (left right : Node) :
    print_node2 .null = "" ∧
    print_node2 (.var c) = String.singleton c ∧
    print_node2 (.binary .Add left right) =
      "( + " ++ print_node2 left ++ " " ++ print_node2 right ++ " )" ∧
    print_node2 (.binary .Sub left right) =
      "( - " ++ print_node2 left ++ " " ++ print_node2 right ++ " )" ∧
    print_node2 (.binary .Mul left right) =
      "( * " ++ print_node2 left ++ " " ++ print_node2 right ++ " )" ∧
    print_node2 (.binary .Div left right) =
      "( / " ++ print_node2 left ++ " " ++ print_node2 right ++ " )" ∧
    print_node2 (.binary .CompareLessThan left right) =
      "( < " ++ print_node2 left ++ " " ++ print_node2 right ++ " )" ∧
    print_node2 (.binary .CompareGreaterThan left right) =
      "( > " ++ print_node2 left ++ " " ++ print_node2 right ++ " )" := by
  refine ⟨rfl, rfl, ?_, ?_, ?_, ?_, ?_, ?_⟩ <;> simp [print_node2]

/-- C15: on a cursor whose offset is at most the length of its token stream,
`get_next_token` returns the end-of-input token and the cursor as it is when
the offset equals the length, and otherwise the token at the offset and the
cursor one further; the token stream is the same and the offset is still at
most its length. -/
theorem get_next_token_contract (parser : Parser)
    (hle : parser.current_token_offset ≤ parser.tokens.length) :
    (parser.current_token_offset = parser.tokens.length →
      get_next_token parser = .ok (⟨.EOF, NUL⟩, parser)) ∧
    (∀ h : parser.current_token_offset < parser.tokens.length,
      get_next_token parser =
        .ok (parser.tokens.get ⟨parser.current_token_offset, h⟩,
          ⟨parser.tokens, parser.current_token_offset + 1⟩)) ∧
    ∃ token after, get_next_token parser = .ok (token, after) ∧
      after.tokens = parser.tokens ∧ after.current_token_offset ≤ after.tokens.length := by
  have h1 : parser.current_token_offset = parser.tokens.length →
      get_next_token parser = .ok (⟨.EOF, NUL⟩, parser) := by
    intro h
    simp [get_next_token, h]
  have h2 : ∀ h : parser.current_token_offset < parser.tokens.length,
      get_next_token parser =
        .ok (parser.tokens.get ⟨parser.current_token_offset, h⟩,
          ⟨parser.tokens, parser.current_token_offset + 1⟩) := by
    intro h
    unfold get_next_token
    rw [if_neg (by omega), List.getElem?_eq_getElem h]
    rfl
  refine ⟨h1, h2, ?_⟩
  rcases Nat.lt_or_ge parser.current_token_offset parser.tokens.length with h | h
  · exact ⟨_, _, h2 h, rfl, h⟩
  · exact ⟨_, _, h1 (by omega), rfl, hle⟩

/-- C15 on the tokens of `a + b` at offset 1 (the `+`). -/
theorem get_next_token_contract_witness :
    (1 : Nat) ≤ (tokenize "a + b").length ∧
    get_next_token ⟨tokenize "a + b", 1⟩ = .ok (⟨.Plus, NUL⟩, ⟨tokenize "a + b", 2⟩) :=
  ⟨by decide,
    (get_next_token_contract ⟨tokenize "a + b", 1⟩ (by decide)).2.1 (by decide)⟩

/-- C16, counterexample: on `a * b * c` (op1 and op2 both `*`) and on
`a + b - c` (op1 and op2 both additive) `parse_tree_rewriting` performs no
rotation and returns op1(x, op2(y, z)). -/
theorem single_step_does_not_rotate_equal_precedence :
    parse_tree_rewriting 9 "a * b * c" =
      .ok (.binary .Mul (.var 'a') (.binary .Mul (.var 'b') (.var 'c'))) ∧
    Node.binary .Mul (.var 'a') (.binary .Mul (.var 'b') (.var 'c')) ≠
      Node.binary .Mul (.binary .Mul (.var 'a') (.var 'b')) (.var 'c') ∧
    parse_tree_rewriting 9 "a + b - c" =
      .ok (.binary .Add (.var 'a') (.binary .Sub (.var 'b') (.var 'c'))) ∧
    Node.binary .Add (.var 'a') (.binary .Sub (.var 'b') (.var 'c')) ≠
      Node.binary .Sub (.binary .Add (.var 'a') (.var 'b')) (.var 'c') :=
  ⟨by rfl, by decide, by rfl, by decide⟩

/-- C16, amended: on an input `x op1 y op2 z` with arithmetic operators,
`parse_tree_rewriting` returns the rotated tree op2(op1(x, y), z) when op1 is
`*` or `/` and op2 is `+` or `-`, and the unrotated tree op1(x, op2(y, z)) in
every other case. -/
theorem single_step_on_two_operators (source : String) (x y z : Char) (o1 o2 : Token)
    (fuel : Nat) (htok : tokenize source = [var_token x, o1, var_token y, o2, var_token z])
    (hwf : well_formed (tokenize source) = true)
    (harith : arithmetic_only (tokenize source) = true) (hfuel : 3 ≤ fuel) :
    ((o1.kind = .Asterisk ∨ o1.kind = .Slash) ∧ (o2.kind = .Plus ∨ o2.kind = .Minus) →
      parse_tree_rewriting fuel source =
        .ok (.binary (to_binary_op o2) (.binary (to_binary_op o1) (.var x) (.var y)) (.var z))) ∧
    (¬ ((o1.kind = .Asterisk ∨ o1.kind = .Slash) ∧ (o2.kind = .Plus ∨ o2.kind = .Minus)) →
      parse_tree_rewriting fuel source =
        .ok (.binary (to_binary_op o1) (.var x) (.binary (to_binary_op o2) (.var y) (.var z)))) := by
  have h : tokenize source = var_token x :: flat [(o1, y), (o2, z)] := htok
  have hb1 : is_binary_operator o1 = true := by
    rw [htok] at hwf; simp [well_formed] at hwf; exact hwf.1.2
  have hb2 : is_binary_operator o2 = true := by
    rw [htok] at hwf; simp [well_formed] at hwf; exact hwf.2.1.2
  have hn1 := (tokenize_operator source o1 (by rw [htok]; simp)).2 hb1
  have hn2 := (tokenize_operator source o2 (by rw [htok]; simp)).2 hb2
  have hops : OpsOK [(o1, y), (o2, z)] := by
    intro p hp
    simp only [List.mem_cons, List.mem_singleton, List.not_mem_nil, or_false] at hp
    rcases hp with rfl | rfl
    · exact ⟨hb1, hn1⟩
    · exact ⟨hb2, hn2⟩
  have ha := arithmetic_only_ops (v := x) (by rw [← h]; exact harith)
  have ha1 := ha (o1, y) (by simp)
  have ha2 := ha (o2, z) (by simp)
  rw [parse_tree_rewriting_eq h hops (by simp; omega)]
  simp only [rewriting_tree, single_rotation]
  obtain ⟨k1, c1⟩ := o1
  obtain ⟨k2, c2⟩ := o2
  cases k1 <;> simp [is_binary_operator] at hb1 <;> simp at ha1 <;>
    cases k2 <;> simp [is_binary_operator] at hb2 <;> simp at ha2 <;> simp [to_binary_op]

/-- C16, amended, at the inputs `a / b - c` (rotated) and `a * b * c` (not
rotated). -/
theorem single_step_on_two_operators_witness :
    parse_tree_rewriting 3 "a / b - c" =
      .ok (.binary (to_binary_op ⟨.Minus, NUL⟩)
        (.binary (to_binary_op ⟨.Slash, NUL⟩) (.var 'a') (.var 'b')) (.var 'c')) ∧
    parse_tree_rewriting 3 "a * b * c" =
      .ok (.binary (to_binary_op ⟨.Asterisk, NUL⟩) (.var 'a')
        (.binary (to_binary_op ⟨.Asterisk, NUL⟩) (.var 'b') (.var 'c'))) :=
  ⟨(single_step_on_two_operators "a / b - c" 'a' 'b' 'c' ⟨.Slash, NUL⟩ ⟨.Minus, NUL⟩ 3
      (by rfl) (by rfl) (by rfl) (by decide)).1 (by decide),
    (single_step_on_two_operators "a * b * c" 'a' 'b' 'c' ⟨.Asterisk, NUL⟩ ⟨.Asterisk, NUL⟩ 3
      (by rfl) (by rfl) (by rfl) (by decide)).2 (by decide)⟩

/-- C17, the failing input: in `parse_pratt` on `a + b` the call with the
cursor at the end of the stream (offset 3), the left operand `b` and minimum
precedence 2 reads the end of input, whose precedence 0 is at most 2, and
returns the cursor at offset 2, not 3; at offset 1, before the end, the same
call gives the cursor back as it was. -/
theorem push_back_at_end_of_stream_moves_cursor :
    parse_increasing_precedence 1 ⟨tokenize "a + b", 3⟩ (.var 'b') 2 =
      .ok (.var 'b', ⟨tokenize "a + b", 2⟩) ∧
    parse_increasing_precedence 1 ⟨tokenize "a + b", 1⟩ (.var 'a') 2 =
      .ok (.var 'a', ⟨tokenize "a + b", 1⟩) :=
  ⟨by rfl, by rfl⟩

/-! ## The printer -/

theorem print_node2_binary_data {k : NodeKind} (hk : is_operator_kind k = true) (l r : Node) :
    (print_node2 (.binary k l r)).data =
      '(' :: ' ' :: operator_char k :: ' ' ::
        ((print_node2 l).data ++ ' ' :: ((print_node2 r).data ++ [' ', ')'])) := by
  cases k <;> simp [is_operator_kind] at hk <;>
    simp [print_node2, operator_char, String.data_append]

theorem print_node2_var_data (c : Char) : (print_node2 (.var c)).data = [c] := rfl

theorem operator_char_injective {k1 k2 : NodeKind} (h1 : is_operator_kind k1 = true)
    (h2 : is_operator_kind k2 = true) (h : operator_char k1 = operator_char k2) : k1 = k2 := by
  cases k1 <;> simp [is_operator_kind] at h1 <;> cases k2 <;> simp [is_operator_kind] at h2 <;>
    first | rfl | (revert h; decide)

theorem print_node2_prefix_free : ∀ (t1 t2 : Node) (s1 s2 : List Char),
    node_invariant t1 = true → node_invariant t2 = true →
    no_paren_leaf t1 = true → no_paren_leaf t2 = true →
    (print_node2 t1).data ++ s1 = (print_node2 t2).data ++ s2 → t1 = t2 ∧ s1 = s2 := by
  intro t1
  induction t1 with
  | null => intro t2 s1 s2 h; simp [node_invariant] at h
  | var c =>
    intro t2 s1 s2 _ hi2 hp1 hp2 h
    cases t2 with
    | null => simp [node_invariant] at hi2
    | var c2 =>
      simp only [print_node2_var_data, List.cons_append, List.nil_append,
        List.cons.injEq] at h
      exact ⟨by rw [h.1], h.2⟩
    | binary k l r =>
      exfalso
      rw [print_node2_binary_data (node_invariant_binary.mp hi2).1] at h
      simp only [print_node2_var_data, List.cons_append, List.nil_append,
        List.cons.injEq] at h
      simp [no_paren_leaf] at hp1
      exact hp1 h.1
  | binary k l r ihl ihr =>
    intro t2 s1 s2 hi1 hi2 hp1 hp2 h
    have hi1' := node_invariant_binary.mp hi1
    simp only [no_paren_leaf, Bool.and_eq_true] at hp1
    cases t2 with
    | null => simp [node_invariant] at hi2
    | var c2 =>
      exfalso
      rw [print_node2_binary_data hi1'.1] at h
      simp only [print_node2_var_data, List.cons_append, List.nil_append,
        List.cons.injEq] at h
      simp [no_paren_leaf] at hp2
      exact hp2 h.1.symm
    | binary k2 l2 r2 =>
      have hi2' := node_invariant_binary.mp hi2
      simp only [no_paren_leaf, Bool.and_eq_true] at hp2
      rw [print_node2_binary_data hi1'.1, print_node2_binary_data hi2'.1] at h
      simp only [List.cons_append, List.append_assoc, List.cons.injEq, true_and] at h
      obtain ⟨hk, hrest⟩ := h
      obtain ⟨hl, hrest⟩ := ihl l2 _ _ hi1'.2.1 hi2'.2.1 hp1.1 hp2.1 hrest
      simp only [List.cons.injEq, true_and] at hrest
      obtain ⟨hr, hrest⟩ := ihr r2 _ _ hi1'.2.2 hi2'.2.2 hp1.2 hp2.2 hrest
      simp only [List.nil_append, List.cons.injEq, true_and] at hrest
      exact ⟨by rw [operator_char_injective hi1'.1 hi2'.1 hk, hl, hr], hrest⟩

/-- C13, counterexample: two different trees, each with operator kinds at the
interior nodes and both children present, that `print_node2` renders to the
same text; their leaves are named `(`, `)` and `+`. -/
theorem print_node2_not_injective_on_all_leaves :
    node_invariant
      (.binary .Add (.binary .Add (.var '(') (.var '+'))
        (.binary .Add (.binary .Add (.var ')') (.var ')')) (.var ')'))) = true ∧
    node_invariant
      (.binary .Add
        (.binary .Add (.binary .Add (.var ')') (.binary .Add (.var '(') (.var '+'))) (.var ')'))
        (.var ')')) = true ∧
    print_node2
      (.binary .Add (.binary .Add (.var '(') (.var '+'))
        (.binary .Add (.binary .Add (.var ')') (.var ')')) (.var ')'))) =
      print_node2
        (.binary .Add
          (.binary .Add (.binary .Add (.var ')') (.binary .Add (.var '(') (.var '+'))) (.var ')'))
          (.var ')')) ∧
    Node.binary .Add (.binary .Add (.var '(') (.var '+'))
        (.binary .Add (.binary .Add (.var ')') (.var ')')) (.var ')')) ≠
      Node.binary .Add
        (.binary .Add (.binary .Add (.var ')') (.binary .Add (.var '(') (.var '+'))) (.var ')'))
        (.var ')') :=
  ⟨by rfl, by rfl, by rfl, by decide⟩

/-- C13, amended: on trees in which every interior node has one of the six
operator kinds and both children present and no leaf is named `(` (so on
every tree over lowercase letters), `print_node2` is injective. -/
theorem print_node2_injective (t1 t2 : Node) (hi1 : node_invariant t1 = true)
    (hi2 : node_invariant t2 = true) (hp1 : no_paren_leaf t1 = true)
    (hp2 : no_paren_leaf t2 = true) (h : print_node2 t1 = print_node2 t2) : t1 = t2 :=
  (print_node2_prefix_free t1 t2 [] [] hi1 hi2 hp1 hp2 (by rw [h])).1

/-- C13, amended, at the trees the single-step and the precedence-climbing
algorithm build for `a * b + c`. -/
theorem print_node2_injective_witness :
    print_node2 (rewriting_tree 'a' [(⟨.Asterisk, NUL⟩, 'b'), (⟨.Plus, NUL⟩, 'c')]) =
      print_node2 (pratt_tree 'a' [(⟨.Asterisk, NUL⟩, 'b'), (⟨.Plus, NUL⟩, 'c')]) ∧
    rewriting_tree 'a' [(⟨.Asterisk, NUL⟩, 'b'), (⟨.Plus, NUL⟩, 'c')] =
      pratt_tree 'a' [(⟨.Asterisk, NUL⟩, 'b'), (⟨.Plus, NUL⟩, 'c')] :=
  ⟨by rfl, print_node2_injective _ _ (by rfl) (by rfl) (by rfl) (by rfl) (by rfl)⟩

/-! ## No node of kind `Invalid` -/

theorem bind_ok {α β : Type} {x : Run α} {f : α → Run β} {b : β} (h : x >>= f = .ok b) :
    ∃ a, x = .ok a ∧ f a = .ok b := by
  cases x with
  | error e => cases h
  | ok a => exact ⟨a, rfl, h⟩

theorem to_binary_op_invalid_iff (t : Token) :
    to_binary_op t = .Invalid ↔ is_binary_operator t = false := by
  obtain ⟨k, c⟩ := t
  cases k <;> simp [to_binary_op, is_binary_operator]

theorem no_invalid_binary {k : NodeKind} {l r : Node} :
    no_invalid (.binary k l r) = true ↔
      k ≠ .Invalid ∧ no_invalid l = true ∧ no_invalid r = true := by
  simp [no_invalid, and_assoc]

theorem to_binary_op_ne_invalid {t : Token} (h : is_binary_operator t = true) :
    to_binary_op t ≠ .Invalid := by
  intro h2
  rw [(to_binary_op_invalid_iff t).mp h2] at h
  cases h

theorem parse_leaf_eq (p : Parser) :
    parse_leaf p = (get_next_token p >>= fun a =>
      if a.1.kind ≠ .Variable then pure (.null, a.2)
      else pure (make_variable_name_node a.1.variable_name, a.2)) := rfl

theorem parse_leaf_no_invalid {p : Parser} {a : Node × Parser} (h : parse_leaf p = .ok a) :
    no_invalid a.1 = true := by
  rw [parse_leaf_eq] at h
  obtain ⟨b, _, h2⟩ := bind_ok h
  split at h2 <;> (injection h2 with h2; subst h2; rfl)

theorem naive_no_invalid : ∀ (fuel : Nat) (p p2 : Parser) (t : Node),
    parse_expression_naive fuel p = .ok (t, p2) → no_invalid t = true := by
  intro fuel
  induction fuel with
  | zero => intro p p2 t h; cases h
  | succ f ih =>
    intro p p2 t h
    rw [parse_expression_naive_succ] at h
    obtain ⟨a, ha, h⟩ := bind_ok h
    obtain ⟨b, _, h⟩ := bind_ok h
    have hl := parse_leaf_no_invalid ha
    split at h
    · rename_i hb
      obtain ⟨c, hc, h⟩ := bind_ok h
      have hr := ih b.2 c.2 c.1 hc
      injection h with h; injection h with h3 _; subst h3
      exact no_invalid_binary.mpr ⟨to_binary_op_ne_invalid hb, hl, hr⟩
    · injection h with h; injection h with h3 _; subst h3
      exact hl

theorem rewriting_no_invalid : ∀ (fuel : Nat) (p p2 : Parser) (t : Node),
    parse_expression_tree_rewriting fuel p = .ok (t, p2) → no_invalid t = true := by
  intro fuel
  induction fuel with
  | zero => intro p p2 t h; cases h
  | succ f ih =>
    intro p p2 t h
    rw [parse_expression_tree_rewriting_succ] at h
    obtain ⟨a, ha, h⟩ := bind_ok h
    obtain ⟨b, _, h⟩ := bind_ok h
    have hl := parse_leaf_no_invalid ha
    split at h
    · rename_i hb
      obtain ⟨c, hc, h⟩ := bind_ok h
      have hr := ih b.2 c.2 c.1 hc
      have hk := to_binary_op_ne_invalid hb
      have hplain : no_invalid (make_binary_op_node (to_binary_op b.1) a.1 c.1) = true :=
        no_invalid_binary.mpr ⟨hk, hl, hr⟩
      split at h
      · obtain ⟨rk, _, h⟩ := bind_ok h
        split at h
        · obtain ⟨rl, hrl, h⟩ := bind_ok h
          obtain ⟨res, hres, h⟩ := bind_ok h
          injection h with h; injection h with h3 _; subst h3
          generalize c.1 = right at hr hrl hres
          cases right with
          | null => cases hrl
          | var v => cases hrl
          | binary k l r =>
            have hr' := no_invalid_binary.mp hr
            simp only [Node.left] at hrl
            injection hrl with hrl; subst hrl
            simp only [Node.set_left] at hres
            injection hres with hres; subst hres
            exact no_invalid_binary.mpr
              ⟨hr'.1, no_invalid_binary.mpr ⟨hk, hl, hr'.2.1⟩, hr'.2.2⟩
        · injection h with h; injection h with h3 _; subst h3
          exact hplain
      · injection h with h; injection h with h3 _; subst h3
        exact hplain
    · injection h with h; injection h with h3 _; subst h3
      exact hl

theorem relink_no_invalid (spine : List (NodeKind × Node)) : ∀ t : Node,
    (∀ e ∈ spine, e.1 ≠ .Invalid ∧ no_invalid e.2 = true) → no_invalid t = true →
    no_invalid (relink spine t) = true := by
  induction spine with
  | nil => intro t _ ht; exact ht
  | cons e spine ih =>
    intro t hs ht
    have he := hs e (List.mem_cons_self _ _)
    exact ih _ (fun e2 h2 => hs e2 (List.mem_cons_of_mem _ h2))
      (no_invalid_binary.mpr ⟨he.1, ht, he.2⟩)

theorem rotation_loop_no_invalid (rotates : NodeKind → Bool) (kind : NodeKind) (left : Node)
    (hk : kind ≠ .Invalid) (hl : no_invalid left = true) (right : Node) :
    ∀ (spine : List (NodeKind × Node)) (t : Node),
      rotation_loop rotates kind left right spine = .ok t → no_invalid right = true →
      (∀ e ∈ spine, e.1 ≠ .Invalid ∧ no_invalid e.2 = true) → no_invalid t = true := by
  induction right with
  | null => intro spine t h; cases h
  | var c =>
    intro spine t h _ hs
    unfold rotation_loop at h
    split at h
    · cases h
    · injection h with h; subst h
      exact relink_no_invalid spine _ hs (no_invalid_binary.mpr ⟨hk, hl, rfl⟩)
  | binary k l r ihl _ =>
    intro spine t h hr hs
    have hr' := no_invalid_binary.mp hr
    unfold rotation_loop at h
    split at h
    · refine ihl _ t h hr'.2.1 ?_
      intro e he
      rcases List.mem_cons.mp he with rfl | he
      · exact ⟨hr'.1, hr'.2.2⟩
      · exact hs e he
    · injection h with h; subst h
      exact relink_no_invalid spine _ hs (no_invalid_binary.mpr ⟨hk, hl, hr⟩)

theorem complete_no_invalid : ∀ (fuel : Nat) (p p2 : Parser) (t : Node),
    parse_expression_tree_rewriting_complete fuel p = .ok (t, p2) → no_invalid t = true := by
  intro fuel
  induction fuel with
  | zero => intro p p2 t h; cases h
  | succ f ih =>
    intro p p2 t h
    rw [parse_expression_tree_rewriting_complete_succ] at h
    obtain ⟨a, ha, h⟩ := bind_ok h
    obtain ⟨b, _, h⟩ := bind_ok h
    have hl := parse_leaf_no_invalid ha
    split at h
    · rename_i hb
      obtain ⟨c, hc, h⟩ := bind_ok h
      have hr := ih b.2 c.2 c.1 hc
      have hk := to_binary_op_ne_invalid hb
      split at h
      · obtain ⟨root, hroot, h⟩ := bind_ok h
        injection h with h; injection h with h3 _; subst h3
        exact rotation_loop_no_invalid _ _ _ hk hl _ [] _ hroot hr (fun _ he => by cases he)
      · split at h
        · obtain ⟨root, hroot, h⟩ := bind_ok h
          injection h with h; injection h with h3 _; subst h3
          exact rotation_loop_no_invalid _ _ _ hk hl _ [] _ hroot hr (fun _ he => by cases he)
        · injection h with h; injection h with h3 _; subst h3
          exact no_invalid_binary.mpr ⟨hk, hl, hr⟩
    · injection h with h; injection h with h3 _; subst h3
      exact hl

theorem pratt_no_invalid : ∀ fuel : Nat,
    (∀ (p p2 : Parser) (left t : Node) (m : Int),
      parse_increasing_precedence fuel p left m = .ok (t, p2) → no_invalid left = true →
      no_invalid t = true) ∧
    (∀ (p p2 : Parser) (t : Node) (m : Int),
      parse_expression fuel p m = .ok (t, p2) → no_invalid t = true) ∧
    (∀ (p p2 : Parser) (left t : Node) (m : Int),
      parse_expression_loop fuel p left m = .ok (t, p2) → no_invalid left = true →
      no_invalid t = true) := by
  intro fuel
  induction fuel with
  | zero =>
    refine ⟨?_, ?_, ?_⟩
    · intro p p2 left t m h; cases h
    · intro p p2 t m h; cases h
    · intro p p2 left t m h; cases h
  | succ f ih =>
    obtain ⟨ih1, ih2, ih3⟩ := ih
    refine ⟨?_, ?_, ?_⟩
    · intro p p2 left t m h hl
      rw [parse_increasing_precedence_succ] at h
      obtain ⟨a, _, h⟩ := bind_ok h
      split at h
      · injection h with h; injection h with h3 _; subst h3
        exact hl
      · split at h
        · rename_i hb
          obtain ⟨c, hc, h⟩ := bind_ok h
          injection h with h; injection h with h3 _; subst h3
          exact no_invalid_binary.mpr ⟨to_binary_op_ne_invalid hb, hl, ih2 _ _ _ _ hc⟩
        · injection h with h; injection h with h3 _; subst h3
          exact hl
    · intro p p2 t m h
      rw [parse_expression_succ] at h
      obtain ⟨a, ha, h⟩ := bind_ok h
      exact ih3 _ _ _ _ _ h (parse_leaf_no_invalid ha)
    · intro p p2 left t m h hl
      rw [parse_expression_loop_succ] at h
      obtain ⟨a, ha, h⟩ := bind_ok h
      split at h
      · injection h with h; injection h with h3 _; subst h3
        exact hl
      · exact ih3 _ _ _ _ _ h (ih1 _ _ _ _ _ ha hl)

/-- C18: for every source text, a tree returned by any of the four algorithms
has no node of kind `Invalid`; `to_binary_op` gives `Invalid` exactly on the
tokens on which `is_binary_operator` is false. -/
theorem no_invalid_node_in_parsed_tree (source : String) (fuel : Nat) (tree : Node)
    (h : parse_naive fuel source = .ok tree ∨ parse_tree_rewriting fuel source = .ok tree ∨
      parse_tree_rewriting_complete fuel source = .ok tree ∨
      parse_pratt fuel source = .ok tree) :
    no_invalid tree = true ∧
      ∀ t : Token, to_binary_op t = .Invalid ↔ is_binary_operator t = false := by
  refine ⟨?_, to_binary_op_invalid_iff⟩
  rcases h with h | h | h | h
  · obtain ⟨a, ha, h⟩ := bind_ok h
    injection h with h; subst h
    exact naive_no_invalid _ _ a.2 a.1 ha
  · obtain ⟨a, ha, h⟩ := bind_ok h
    injection h with h; subst h
    exact rewriting_no_invalid _ _ a.2 a.1 ha
  · obtain ⟨a, ha, h⟩ := bind_ok h
    injection h with h; subst h
    exact complete_no_invalid _ _ a.2 a.1 ha
  · obtain ⟨a, ha, h⟩ := bind_ok h
    injection h with h; subst h
    exact (pratt_no_invalid _).2.1 _ a.2 a.1 _ ha

/-- C18 at the malformed input `a*+ +b`, on which `parse_pratt` returns a tree
with an absent child. -/
theorem no_invalid_node_in_parsed_tree_witness :
    parse_pratt 12 "a*+ +b" = .ok (.binary .Add (.binary .Mul (.var 'a') .null) (.var 'b')) ∧
    no_invalid (.binary .Add (.binary .Mul (.var 'a') .null) (.var 'b')) = true ∧
      ∀ t : Token, to_binary_op t = .Invalid ↔ is_binary_operator t = false :=
  ⟨by rfl, no_invalid_node_in_parsed_tree "a*+ +b" 12 _ (Or.inr (Or.inr (Or.inr (by rfl))))⟩

/-! ## The cursor stays in bounds -/

theorem get_next_token_cases (T : List Token) (o : Nat) (ho : o ≤ T.length) :
    (o = T.length ∧ get_next_token ⟨T, o⟩ = .ok (⟨.EOF, NUL⟩, ⟨T, o⟩)) ∨
    (o < T.length ∧ ∃ t, get_next_token ⟨T, o⟩ = .ok (t, ⟨T, o + 1⟩)) := by
  rcases Nat.lt_or_ge o T.length with h | h
  · exact Or.inr ⟨h, T.get ⟨o, h⟩, (get_next_token_contract ⟨T, o⟩ ho).2.1 h⟩
  · exact Or.inl ⟨by omega, (get_next_token_contract ⟨T, o⟩ ho).1 (by simp; omega)⟩

theorem get_next_token_checked_eq (T : List Token) (o : Nat) (ho : o ≤ T.length) :
    get_next_token_checked ⟨T, o⟩ = get_next_token ⟨T, o⟩ := by
  unfold get_next_token_checked
  rw [if_pos (by simpa [cursor_in_bounds] using ho)]
  rcases get_next_token_cases T o ho with ⟨_, h⟩ | ⟨hlt, t, h⟩
  · rw [h]
    simp only [bind, Except.bind]
    rw [if_pos (by simpa [cursor_in_bounds] using ho)]
    rfl
  · rw [h]
    simp only [bind, Except.bind]
    rw [if_pos (by simp [cursor_in_bounds]; omega)]
    rfl

theorem parse_leaf_checked_eq (T : List Token) (o : Nat) (ho : o ≤ T.length) :
    parse_leaf_checked ⟨T, o⟩ = parse_leaf ⟨T, o⟩ := by
  unfold parse_leaf_checked parse_leaf
  rw [get_next_token_checked_eq T o ho]

theorem parse_leaf_cases (T : List Token) (o : Nat) (ho : o ≤ T.length) :
    ∃ t o2, parse_leaf ⟨T, o⟩ = .ok (t, ⟨T, o2⟩) ∧ o2 ≤ T.length := by
  rw [parse_leaf_eq]
  rcases get_next_token_cases T o ho with ⟨_, h⟩ | ⟨hlt, t, h⟩
  · rw [h]
    simp only [bind, Except.bind, pure, Except.pure]
    split <;> exact ⟨_, o, rfl, ho⟩
  · rw [h]
    simp only [bind, Except.bind, pure, Except.pure]
    split <;> exact ⟨_, o + 1, rfl, hlt⟩

theorem go_back_cases (T : List Token) (o : Nat) (ho : o ≤ T.length) (hpos : 1 ≤ o) :
    ∃ o2, go_back_to_previous_token ⟨T, o⟩ = ⟨T, o2⟩ ∧ o2 ≤ T.length ∧
      go_back_to_previous_token_checked ⟨T, o⟩ = .ok ⟨T, o2⟩ := by
  refine ⟨(o + (SIZE_MODULUS - 1)) % SIZE_MODULUS, rfl, ?_, ?_⟩
  · simp only [SIZE_MODULUS]; omega
  · unfold go_back_to_previous_token_checked
    rw [if_neg (by simp; omega), if_pos]
    · rfl
    · simp only [cursor_in_bounds, go_back_to_previous_token, SIZE_MODULUS, decide_eq_true_eq]
      omega

theorem parse_increasing_precedence_checked_succ (fuel : Nat) (parser : Parser) (left : Node)
    (m : Int) :
    parse_increasing_precedence_checked (fuel + 1) parser left m =
      (get_next_token_checked parser >>= fun a =>
        if PRECEDENCE_TABLE a.1.kind ≤ m then
          go_back_to_previous_token_checked a.2 >>= fun p => pure (left, p)
        else if is_binary_operator a.1 = true then
          parse_expression_checked fuel a.2 (PRECEDENCE_TABLE a.1.kind) >>= fun c =>
            pure (make_binary_op_node (to_binary_op a.1) left c.1, c.2)
        else pure (left, a.2)) := by
  rw [parse_increasing_precedence_checked]
  rfl

theorem parse_expression_checked_succ (fuel : Nat) (parser : Parser) (m : Int) :
    parse_expression_checked (fuel + 1) parser m =
      (parse_leaf_checked parser >>= fun a => parse_expression_loop_checked fuel a.2 a.1 m) := by
  rw [parse_expression_checked]

theorem parse_expression_loop_checked_succ (fuel : Nat) (parser : Parser) (left : Node)
    (m : Int) :
    parse_expression_loop_checked (fuel + 1) parser left m =
      (parse_increasing_precedence_checked fuel parser left m >>= fun a =>
        if a.1 = left then pure (left, a.2)
        else parse_expression_loop_checked fuel a.2 a.1 m) := by
  rw [parse_expression_loop_checked]
  rfl

theorem ok_bind_eq {α β : Type} (a : α) (f : α → Run β) : (Except.ok a >>= f) = f a := rfl

theorem Stays.of_bind {T : List Token} {c p : Run (Node × Parser)}
    {fc fp : Node × Parser → Run (Node × Parser)} (h : Stays T c p)
    (hf : ∀ t o, o ≤ T.length → p = .ok (t, ⟨T, o⟩) →
      Stays T (fc (t, ⟨T, o⟩)) (fp (t, ⟨T, o⟩))) :
    Stays T (c >>= fc) (p >>= fp) := by
  obtain ⟨h1, h2, h3⟩ := h
  subst h1
  cases hc : c with
  | error e =>
    refine ⟨rfl, ?_, ?_⟩
    · intro he
      injection he with he
      exact h2 (by rw [hc, he])
    · intro t p hp; cases hp
  | ok a =>
    obtain ⟨t, q⟩ := a
    obtain ⟨o, hq, ho⟩ := h3 t q hc
    subst hq
    exact hf t o ho hc

theorem Stays.of_ok (T : List Token) (t : Node) (o : Nat) (ho : o ≤ T.length) :
    Stays T (.ok (t, ⟨T, o⟩)) (.ok (t, ⟨T, o⟩)) :=
  ⟨rfl, fun h => (by cases h), fun t2 p hp => by
    injection hp with hp; injection hp with _ hp; exact ⟨o, hp.symm, ho⟩⟩

theorem pratt_stays (T : List Token) : ∀ fuel : Nat,
    (∀ (o : Nat) (left : Node) (m : Int), o ≤ T.length → (0 ≤ m → 1 ≤ T.length) →
      Stays T (parse_increasing_precedence_checked fuel ⟨T, o⟩ left m)
        (parse_increasing_precedence fuel ⟨T, o⟩ left m)) ∧
    (∀ (o : Nat) (m : Int), o ≤ T.length → (0 ≤ m → 1 ≤ T.length) →
      Stays T (parse_expression_checked fuel ⟨T, o⟩ m) (parse_expression fuel ⟨T, o⟩ m)) ∧
    (∀ (o : Nat) (left : Node) (m : Int), o ≤ T.length → (0 ≤ m → 1 ≤ T.length) →
      Stays T (parse_expression_loop_checked fuel ⟨T, o⟩ left m)
        (parse_expression_loop fuel ⟨T, o⟩ left m)) := by
  have hfuel : Stays T (.error .out_of_fuel) (.error .out_of_fuel) :=
    ⟨rfl, fun h => (by cases h), fun t p hp => (by cases hp)⟩
  intro fuel
  induction fuel with
  | zero => exact ⟨fun _ _ _ _ _ => hfuel, fun _ _ _ _ => hfuel, fun _ _ _ _ _ => hfuel⟩
  | succ f ih =>
    obtain ⟨ih1, ih2, ih3⟩ := ih
    refine ⟨?_, ?_, ?_⟩
    · intro o left m ho hm
      rw [parse_increasing_precedence_checked_succ, parse_increasing_precedence_succ,
        get_next_token_checked_eq T o ho]
      rcases get_next_token_cases T o ho with ⟨hend, h⟩ | ⟨hlt, t, h⟩
      · rw [h, ok_bind_eq, ok_bind_eq]
        by_cases hp : PRECEDENCE_TABLE TokenKind.EOF ≤ m
        · have hp0 : (0 : Int) ≤ m := hp
          obtain ⟨o2, hb, ho2, hbc⟩ := go_back_cases T o ho (by have := hm hp0; omega)
          rw [if_pos hp, if_pos hp, hbc, hb]
          exact Stays.of_ok T left o2 ho2
        · rw [if_neg hp, if_neg hp]
          exact Stays.of_ok T left o ho
      · rw [h, ok_bind_eq, ok_bind_eq]
        by_cases hp : PRECEDENCE_TABLE t.kind ≤ m
        · obtain ⟨o2, hb, ho2, hbc⟩ := go_back_cases T (o + 1) (by omega) (by omega)
          rw [if_pos hp, if_pos hp, hbc, hb]
          exact Stays.of_ok T left o2 ho2
        · rw [if_neg hp, if_neg hp]
          by_cases hb : is_binary_operator t = true
          · rw [if_pos hb, if_pos hb]
            refine Stays.of_bind (ih2 (o + 1) _ (by omega) (fun _ => by omega)) ?_
            intro t2 o2 ho2 _
            exact Stays.of_ok T _ o2 ho2
          · rw [if_neg hb, if_neg hb]
            exact Stays.of_ok T left (o + 1) (by omega)
    · intro o m ho hm
      rw [parse_expression_checked_succ, parse_expression_succ, parse_leaf_checked_eq T o ho]
      obtain ⟨t, o2, hl, ho2⟩ := parse_leaf_cases T o ho
      rw [hl]
      exact ih3 o2 t m ho2 hm
    · intro o left m ho hm
      rw [parse_expression_loop_checked_succ, parse_expression_loop_succ]
      refine Stays.of_bind (ih1 o left m ho hm) ?_
      intro t o2 ho2 _
      by_cases ht : t = left
      · simp only [if_pos ht]
        exact Stays.of_ok T left o2 ho2
      · simp only [if_neg ht]
        exact ih3 o2 t m ho2 hm

/-- What the watch catches: a push-back at offset 0, where the plain function
wraps the offset around. -/
theorem watched_run_faults_at_offset_zero :
    parse_increasing_precedence_checked 1 ⟨[], 0⟩ .null 0 = .error .fault ∧
    parse_increasing_precedence 1 ⟨[], 0⟩ .null 0 = .ok (.null, ⟨[], SIZE_MODULUS - 1⟩) :=
  ⟨by rfl, by rfl⟩

/-- C19: for every source text and every length of run, `parse_pratt` with
the cursor watched (a fault as soon as the offset exceeds the length of the
token stream, or `go_back_to_previous_token` is called at offset 0) does what
`parse_pratt` does, and that is never a fault: no such state is reached. -/
theorem pratt_cursor_stays_in_bounds (source : String) (fuel : Nat) :
    parse_pratt_checked fuel source = parse_pratt fuel source ∧
      parse_pratt fuel source ≠ .error .fault := by
  obtain ⟨h1, h2, _⟩ := (pratt_stays (tokenize source) fuel).2.1 0 (-1) (Nat.zero_le _)
    (fun h => by omega)
  unfold parse_pratt_checked parse_pratt
  simp only [h1]
  refine ⟨trivial, ?_⟩
  cases hc : parse_expression fuel ⟨tokenize source, 0⟩ (-1) with
  | error e =>
    intro he
    injection he with he
    exact h2 (by rw [hc, he])
  | ok a => intro he; cases he

/-! ## The scope of the single-step repair -/

theorem operators_flat (ops : List (Token × Char)) : ∀ v : Char,
    operators (var_token v :: flat ops) = pair_operators ops := by
  induction ops with
  | nil => intro v; rfl
  | cons x rest ih =>
    intro v
    simp only [flat, operators, pair_operators, List.map_cons, List.cons.injEq, true_and]
    exact ih x.2

/-- An operator of arithmetic pairs is multiplicative or additive, and its
node kind follows. -/
theorem arithmetic_operator_cases {t : Token} (hb : is_binary_operator t = true)
    (ha : t.kind ≠ .LessThan ∧ t.kind ≠ .GreaterThan) :
    (is_multiplicative t = true ∧ is_additive t = false ∧
      (to_binary_op t = .Mul ∨ to_binary_op t = .Div)) ∨
    (is_multiplicative t = false ∧ is_additive t = true ∧
      (to_binary_op t = .Add ∨ to_binary_op t = .Sub)) := by
  obtain ⟨k, c⟩ := t
  cases k <;> simp [is_binary_operator] at hb <;> simp at ha <;>
    simp [is_multiplicative, is_additive, to_binary_op]

theorem single_rotation_plain {kind : NodeKind} {left right : Node}
    (h : ¬ (kind = .Mul ∨ kind = .Div) ∨ additive_root right = false) :
    single_rotation kind left right = .binary kind left right := by
  unfold single_rotation
  cases right with
  | null => rfl
  | var c => rfl
  | binary k l r =>
    simp only
    rw [if_neg]
    rintro ⟨h1, h2⟩
    rcases h with h | h
    · exact h h1
    · simp [additive_root, h2] at h

theorem single_rotation_rotates {kind k : NodeKind} {left l r : Node}
    (hk : kind = .Mul ∨ kind = .Div) (ha : k = .Add ∨ k = .Sub) :
    single_rotation kind left (.binary k l r) = .binary k (.binary kind left l) r := by
  simp only [single_rotation]
  rw [if_pos ⟨hk, ha⟩]

theorem node_precedence_le_three (k : NodeKind) : node_precedence k ≤ 3 :=
  precedence_le_three _

/-- The shape of the tree of the single-step algorithm on arithmetic pairs:
its root is additive exactly when there is an additive operator, then its left
child is a leaf exactly when the first operator is additive; without an
additive operator a tree with an operator has a multiplicative root. -/
theorem rewriting_tree_shape (ops : List (Token × Char)) : ∀ v : Char, OpsOK ops →
    OpsArith ops →
    (additive_root (rewriting_tree v ops) = (pair_operators ops).any is_additive) ∧
    ((pair_operators ops).any is_additive = true →
      left_is_leaf (rewriting_tree v ops) = ((pair_operators ops).head?.any is_additive)) ∧
    ((pair_operators ops).any is_additive = false → ops ≠ [] →
      root_precedence (rewriting_tree v ops) = 3) := by
  induction ops with
  | nil =>
    intro v _ _
    refine ⟨rfl, ?_, ?_⟩
    · intro h; simp [pair_operators] at h
    · intro _ h; exact absurd rfl h
  | cons x rest ih =>
    intro v hops ha
    obtain ⟨ih1, ih2, ih3⟩ := ih x.2 hops.tail ha.rest_arith
    have hx := arithmetic_operator_cases hops.head.1 (ha x (List.mem_cons_self _ _))
    simp only [rewriting_tree, pair_operators, List.map_cons, List.any_cons, List.head?_cons,
      Option.any_some] at ih1 ih2 ih3 ⊢
    rcases hx with ⟨hm, hadd, hk⟩ | ⟨hm, hadd, hk⟩
    · -- a multiplicative first operator
      rw [hadd]
      simp only [Bool.false_or]
      cases hany : (List.map (fun x => x.1) rest).any is_additive with
      | false =>
        have hroot : additive_root (rewriting_tree x.2 rest) = false := by
          rw [ih1]; exact hany
        rw [single_rotation_plain (Or.inr hroot)]
        refine ⟨?_, ?_, ?_⟩
        · rcases hk with hk | hk <;> simp [additive_root, hk]
        · intro h; cases h
        · intro _ _
          rcases hk with hk | hk <;> rw [root_precedence_binary, hk] <;> rfl
      | true =>
        have hroot : additive_root (rewriting_tree x.2 rest) = true := by
          rw [ih1]; exact hany
        generalize rewriting_tree x.2 rest = right at hroot
        cases right with
        | null => simp [additive_root] at hroot
        | var c => simp [additive_root] at hroot
        | binary k l r =>
          have hk2 : k = .Add ∨ k = .Sub := by simpa [additive_root] using hroot
          rw [single_rotation_rotates hk hk2]
          refine ⟨?_, ?_, ?_⟩
          · simpa [additive_root] using hk2
          · intro _; rfl
          · intro h; cases h
    · -- an additive first operator
      rw [hadd]
      simp only [Bool.true_or]
      have hnot : ¬ (to_binary_op x.1 = .Mul ∨ to_binary_op x.1 = .Div) := by
        rcases hk with hk | hk <;> simp [hk]
      rw [single_rotation_plain (Or.inl hnot)]
      refine ⟨?_, ?_, ?_⟩
      · simpa [additive_root] using hk
      · intro _; rfl
      · intro h; cases h

theorem no_adjacent_multiplicative_cons (a : Token) (rest : List Token) :
    no_adjacent_multiplicative (a :: rest) =
      ((match rest with
        | b :: _ => !(is_multiplicative a && is_multiplicative b)
        | [] => true) && no_adjacent_multiplicative rest) := rfl

/-- On arithmetic pairs the tree of the single-step algorithm is
precedence-correct exactly when there is at most one additive operator and no
two consecutive operators are multiplicative. -/
theorem rewriting_tree_precedence_correct_iff (ops : List (Token × Char)) : ∀ v : Char,
    OpsOK ops → OpsArith ops →
    (precedence_correct (rewriting_tree v ops) = true ↔
      (pair_operators ops).countP is_additive ≤ 1 ∧
        no_adjacent_multiplicative (pair_operators ops) = true) := by
  induction ops with
  | nil => intro v _ _; simp [rewriting_tree, precedence_correct, pair_operators,
      no_adjacent_multiplicative]
  | cons x rest ih =>
    intro v hops ha
    have ihv := ih x.2 hops.tail ha.rest_arith
    obtain ⟨s1, s2, s3⟩ := rewriting_tree_shape rest x.2 hops.tail ha.rest_arith
    have hx := arithmetic_operator_cases hops.head.1 (ha x (List.mem_cons_self _ _))
    have hcount0 : (pair_operators rest).any is_additive = false ↔
        (pair_operators rest).countP is_additive = 0 := by
      rw [List.countP_eq_zero]
      simp
    simp only [rewriting_tree]
    rw [show pair_operators (x :: rest) = x.1 :: pair_operators rest from rfl,
      no_adjacent_multiplicative_cons, List.countP_cons]
    rcases hx with ⟨hm, hadd, hk⟩ | ⟨hm, hadd, hk⟩
    · -- a multiplicative first operator
      have hp : node_precedence (to_binary_op x.1) = 3 := by
        rcases hk with hk | hk <;> rw [hk] <;> rfl
      simp only [hadd, hm, Bool.true_and, Bool.false_eq_true, if_false, Nat.add_zero]
      cases hany : (pair_operators rest).any is_additive with
      | false =>
        rw [hany] at s1 s3
        rw [single_rotation_plain (Or.inr s1), precedence_correct_binary]
        cases rest with
        | nil => simp [rewriting_tree, precedence_correct, interior_precedence, pair_operators,
            no_adjacent_multiplicative]
        | cons y rest2 =>
          have hy := arithmetic_operator_cases hops.tail.head.1
            (ha y (List.mem_cons_of_mem _ (List.mem_cons_self _ _)))
          have hyadd : is_additive y.1 = false := by
            simp [pair_operators] at hany
            exact hany.1
          have hym : is_multiplicative y.1 = true := by
            rcases hy with ⟨h, _, _⟩ | ⟨_, h, _⟩
            · exact h
            · rw [h] at hyadd; cases hyadd
          have h3 := s3 rfl (by simp)
          constructor
          · rintro ⟨h1 | h1, _⟩
            · omega
            · simp [root_precedence, h1] at h3
          · rintro ⟨_, h2⟩
            simp [pair_operators, hym] at h2
      | true =>
        rw [hany] at s1
        have s2' := s2 hany
        have hcount : 0 < (pair_operators rest).countP is_additive := by
          rcases Nat.eq_zero_or_pos ((pair_operators rest).countP is_additive) with h | h
          · rw [hcount0.mpr h] at hany; cases hany
          · exact h
        generalize hR : rewriting_tree x.2 rest = right at s1 s2' ihv
        cases right with
        | null => simp [additive_root] at s1
        | var c => simp [additive_root] at s1
        | binary k l r =>
          have hk2 : k = .Add ∨ k = .Sub := by simpa [additive_root] using s1
          have hpk : node_precedence k = 2 := by rcases hk2 with h | h <;> rw [h] <;> rfl
          rw [single_rotation_rotates hk hk2]
          have hhead : (pair_operators rest).head?.any is_additive = true ↔
              (match pair_operators rest with
                | b :: _ => !is_multiplicative b
                | [] => true) = true := by
            cases rest with
            | nil => simp [pair_operators] at hcount
            | cons y rest2 =>
              have hy := arithmetic_operator_cases hops.tail.head.1
                (ha y (List.mem_cons_of_mem _ (List.mem_cons_self _ _)))
              rcases hy with ⟨h1, h2, _⟩ | ⟨h1, h2, _⟩ <;> simp [pair_operators, h1, h2]
          have hleaf : interior_precedence l = none ↔ left_is_leaf (.binary k l r) = true := by
            have hinv := rewriting_tree_invariant rest x.2 hops.tail
            rw [hR] at hinv
            have hl := (node_invariant_binary.mp hinv).2.1
            cases l <;> simp [node_invariant] at hl <;>
              simp [interior_precedence, left_is_leaf]
          rw [precedence_correct_binary, precedence_correct_binary, hp, hpk]
          rw [precedence_correct_binary, hpk] at ihv
          rw [s2'] at hleaf
          have hl3 := node_precedence_le_three
          constructor
          · rintro ⟨h1, _, ⟨h3, _, _, h5⟩, h6⟩
            have hnone : interior_precedence l = none := by
              rcases h3 with h3 | h3
              · cases l with
                | null => rfl
                | var c => rfl
                | binary k3 l3 r3 =>
                  exfalso
                  have := hl3 k3
                  simp only [root_precedence_binary] at h3
                  omega
              · exact h3
            have hpc := ihv.mp ⟨h1, Or.inr hnone, h5, h6⟩
            exact ⟨hpc.1, by
              rw [Bool.and_eq_true]
              exact ⟨hhead.mp (hleaf.mp hnone), hpc.2⟩⟩
          · rintro ⟨h1, h2⟩
            rw [Bool.and_eq_true] at h2
            have hnone := hleaf.mpr (hhead.mpr h2.1)
            obtain ⟨h3, _, h5, h6⟩ := ihv.mpr ⟨h1, h2.2⟩
            refine ⟨h3, Or.inl ?_, ⟨Or.inr hnone, Or.inr rfl, rfl, h5⟩, h6⟩
            simp only [root_precedence_binary, hp]
            omega
    · -- an additive first operator
      have hp : node_precedence (to_binary_op x.1) = 2 := by
        rcases hk with hk | hk <;> rw [hk] <;> rfl
      have hnot : ¬ (to_binary_op x.1 = .Mul ∨ to_binary_op x.1 = .Div) := by
        rcases hk with hk | hk <;> simp [hk]
      have hmatch : (match pair_operators rest with
          | b :: _ => !(is_multiplicative x.1 && is_multiplicative b)
          | [] => true) = true := by
        cases pair_operators rest <;> simp [hm]
      rw [single_rotation_plain (Or.inl hnot), precedence_correct_binary, hp, hmatch]
      simp only [hadd, if_true, Bool.true_and]
      constructor
      · rintro ⟨h1, _, _, h4⟩
        have hany : (pair_operators rest).any is_additive = false := by
          cases hany : (pair_operators rest).any is_additive with
          | false => rfl
          | true =>
            exfalso
            rw [hany] at s1
            generalize rewriting_tree x.2 rest = t at s1 h1
            cases t with
            | null => simp [additive_root] at s1
            | var c => simp [additive_root] at s1
            | binary k l r =>
              have hk2 : k = .Add ∨ k = .Sub := by simpa [additive_root] using s1
              have hpk : node_precedence k = 2 := by rcases hk2 with h | h <;> rw [h] <;> rfl
              simp [root_precedence_binary, interior_precedence, hpk] at h1
        have hc := hcount0.mp hany
        exact ⟨by omega, (ihv.mp h4).2⟩
      · rintro ⟨h1, h2⟩
        have hc : (pair_operators rest).countP is_additive = 0 := by omega
        have hany := hcount0.mpr hc
        refine ⟨?_, Or.inr rfl, rfl, ihv.mpr ⟨by omega, h2⟩⟩
        cases rest with
        | nil => exact Or.inr rfl
        | cons y rest2 =>
          have h3 := s3 hany (by simp)
          exact Or.inl (by omega)

theorem scope_iff_shape (os : List Token)
    (h : ∀ t ∈ os, is_additive t = !is_multiplicative t) :
    ((os.countP is_additive ≤ 1 ∧ no_adjacent_multiplicative os = true) ↔
      os.map is_multiplicative ∈ single_step_shapes) := by
  match os, h with
  | [], _ => simp [single_step_shapes, no_adjacent_multiplicative]
  | [a], h =>
    have ha := h a (by simp)
    cases hm : is_multiplicative a <;> simp [hm] at ha <;>
      simp [single_step_shapes, no_adjacent_multiplicative, List.countP_cons, ha, hm]
  | [a, b], h =>
    have ha := h a (by simp)
    have hb := h b (by simp)
    cases hm : is_multiplicative a <;> simp [hm] at ha <;>
      cases hn : is_multiplicative b <;> simp [hn] at hb <;>
      simp [single_step_shapes, no_adjacent_multiplicative, List.countP_cons, ha, hb, hm, hn]
  | [a, b, c], h =>
    have ha := h a (by simp)
    have hb := h b (by simp)
    have hc := h c (by simp)
    cases hm : is_multiplicative a <;> simp [hm] at ha <;>
      cases hn : is_multiplicative b <;> simp [hn] at hb <;>
      cases ho : is_multiplicative c <;> simp [ho] at hc <;>
      simp [single_step_shapes, no_adjacent_multiplicative, List.countP_cons, ha, hb, hc, hm, hn,
        ho]
  | a :: b :: c :: d :: rest, h =>
    have ha := h a (by simp)
    have hb := h b (by simp)
    have hc := h c (by simp)
    have hd := h d (by simp)
    constructor
    · rintro ⟨h1, h2⟩
      exfalso
      simp only [List.countP_cons] at h1
      simp only [no_adjacent_multiplicative, Bool.and_eq_true, Bool.not_eq_true',
        Bool.and_eq_false_iff] at h2
      cases hm : is_multiplicative a <;> simp [hm] at ha <;>
        cases hn : is_multiplicative b <;> simp [hn] at hb <;>
        cases ho : is_multiplicative c <;> simp [ho] at hc <;>
        cases hq : is_multiplicative d <;> simp [hq] at hd <;>
        simp [ha, hb, hc, hd, hm, hn, ho, hq] at h1 h2
    · intro hmem
      simp [single_step_shapes] at hmem

/-- C20: for every well-formed input that uses only `+ - * /`,
`parse_tree_rewriting` returns the tree `parse_pratt` returns exactly when the
input has at most one additive operator and no two consecutive multiplicative
operators, that is exactly for the shapes `v`, `v*v`, `v+v`, `v*v+v`, `v+v*v`
and `v*v+v*v`. -/
theorem single_step_matches_pratt_iff (source : String) (fuel : Nat)
    (hwf : well_formed (tokenize source) = true)
    (harith : arithmetic_only (tokenize source) = true)
    (hsize : (tokenize source).length < SIZE_MODULUS)
    (hfuel : 3 * (tokenize source).length ≤ fuel) :
    (∃ t1 t2, parse_tree_rewriting fuel source = .ok t1 ∧ parse_pratt fuel source = .ok t2 ∧
      (t1 = t2 ↔ in_single_step_scope (tokenize source) = true)) ∧
    (in_single_step_scope (tokenize source) = true ↔
      (operators (tokenize source)).map is_multiplicative ∈ single_step_shapes) := by
  obtain ⟨v, ops, h, hops⟩ := tokens_decompose source hwf
  have hlen := tokens_length h
  have ha : OpsArith ops := arithmetic_only_ops (v := v) (by rw [← h]; exact harith)
  have hscope : in_single_step_scope (tokenize source) = true ↔
      (pair_operators ops).countP is_additive ≤ 1 ∧
        no_adjacent_multiplicative (pair_operators ops) = true := by
    simp [in_single_step_scope, h, operators_flat]
  refine ⟨⟨rewriting_tree v ops, pratt_tree v ops, parse_tree_rewriting_eq h hops (by omega),
    parse_pratt_eq h hops hsize (by omega), ?_⟩, ?_⟩
  · rw [hscope, ← rewriting_tree_precedence_correct_iff ops v hops ha]
    constructor
    · intro heq
      rw [heq]
      exact pratt_tree_precedence_correct v ops hops
    · intro hpc
      exact precedence_correct_unique _ _ (rewriting_tree_invariant ops v hops)
        (pratt_tree_invariant v ops hops) hpc (pratt_tree_precedence_correct v ops hops)
        ((in_order_rewriting_tree ops v hops).trans (in_order_pratt_tree v ops hops).symm)
  · rw [hscope, h, operators_flat]
    refine scope_iff_shape _ ?_
    intro t ht
    simp only [pair_operators, List.mem_map] at ht
    obtain ⟨x, hx, rfl⟩ := ht
    rcases arithmetic_operator_cases (hops x hx).1 (ha x hx) with ⟨h1, h2, _⟩ | ⟨h1, h2, _⟩ <;>
      simp [h1, h2]

/-- C20 at the inputs `a * b + c / d` (in scope, the trees are equal) and
`a + b + c` (out of scope, the trees differ). -/
theorem single_step_matches_pratt_iff_witness :
    (well_formed (tokenize "a * b + c / d") = true ∧
      arithmetic_only (tokenize "a * b + c / d") = true ∧
      in_single_step_scope (tokenize "a * b + c / d") = true ∧
      ∃ t1 t2, parse_tree_rewriting 21 "a * b + c / d" = .ok t1 ∧
        parse_pratt 21 "a * b + c / d" = .ok t2 ∧
        (t1 = t2 ↔ in_single_step_scope (tokenize "a * b + c / d") = true)) ∧
    (well_formed (tokenize "a + b + c") = true ∧
      arithmetic_only (tokenize "a + b + c") = true ∧
      in_single_step_scope (tokenize "a + b + c") = false ∧
      ∃ t1 t2, parse_tree_rewriting 15 "a + b + c" = .ok t1 ∧
        parse_pratt 15 "a + b + c" = .ok t2 ∧
        (t1 = t2 ↔ in_single_step_scope (tokenize "a + b + c") = true)) :=
  ⟨⟨by rfl, by rfl, by rfl,
      (single_step_matches_pratt_iff "a * b + c / d" 21 (by rfl) (by rfl) (by decide)
        (by decide)).1⟩,
    ⟨by rfl, by rfl, by rfl,
      (single_step_matches_pratt_iff "a + b + c" 15 (by rfl) (by rfl) (by decide)
        (by decide)).1⟩⟩

end Tdop
